import Mathlib

/-!
Verification of the ReaLRLHF control-plane specification against the source.

Part 1 embeds the numeric helpers of `base/datapack.py`
(`min_abs_diff_partition`, `ffd_check`, `ffd_with_result`).
Part 2 embeds the scheduler fragments of `reallm/system/master_worker.py`
that the remaining claims are about.

Machine integers (`np.int64`) are modelled as `Int`: all arithmetic in the
inputs considered stays far below `2 ^ 63`, and the only use of the int64
range by the source is the fill value `np.iinfo(np.int64).max`, modelled
explicitly as `i64Max`.
-/

namespace Datapack

/-- The fill value `np.iinfo(np.int64).max = 2^63 - 1` used by
`min_abs_diff_partition`. -/
def i64Max : Int := 9223372036854775807

/-- `prefix_sum[i]` of `min_abs_diff_partition`: the sum of the first `i`
elements of `arr` (`np.concatenate((np.zeros(1), np.cumsum(arr)))`). -/
def prefixSum (arr : List Int) (i : Nat) : Int := (arr.take i).sum

/-- The dynamic-programming table `dp` of `min_abs_diff_partition`, indexed
`dpTable arr j i = dp[i][j]`.  The source fills `dp[i][1] = prefix_sum[i]`,
then `dp[i][j] = min over x < i of max(dp[x][j-1], prefix_sum[i]-prefix_sum[x])`
for `i >= 1, j >= 2`; every entry never written keeps the fill value
`i64Max` (in particular the whole column `j = 0` and the cells `dp[0][j]`
for `j >= 2`). -/
def dpTable (arr : List Int) : Nat → Nat → Int
  | 0, _ => i64Max
  | 1, i => prefixSum arr i
  | j + 2, i =>
    (List.range i).foldl
      (fun acc x => min acc (max (dpTable arr (j + 1) x) (prefixSum arr i - prefixSum arr x)))
      i64Max

/-- One execution of the backtracking loop `for x in range(i)` of
`min_abs_diff_partition`.  The iteration list `range i` is fixed when the
loop is entered, but the source has no `break` after a match: the running
state `(i, j, partitions)` mutates mid-loop and later iterations test the
condition against the *new* `i` and `j`.  Matched pairs are accumulated by
consing, so the accumulator holds the source's `partitions` list reversed. -/
def btPass (arr : List Int) : List Nat → Nat × Nat × List (Nat × Nat) → Nat × Nat × List (Nat × Nat)
  | [], st => st
  | x :: xs, (i, j, ps) =>
    if dpTable arr j i == max (dpTable arr (j - 1) x) (prefixSum arr i - prefixSum arr x) then
      btPass arr xs (x, j - 1, (x, i) :: ps)
    else
      btPass arr xs (i, j, ps)

/-- The `while j > 1` backtracking loop of `min_abs_diff_partition`, with
explicit `fuel` bounding the number of `while` iterations (the source loops
unboundedly; `none` models not finishing within `fuel` iterations). -/
def btLoop (arr : List Int) : Nat → Nat × Nat × List (Nat × Nat) → Option (Nat × Nat × List (Nat × Nat))
  | 0, st => if st.2.1 > 1 then none else some st
  | fuel + 1, st =>
    if st.2.1 > 1 then btLoop arr fuel (btPass arr (List.range st.1) st) else some st

/-- `min_abs_diff_partition(arr, k)` from `base/datapack.py`.  Builds the DP
table, backtracks from `(i, j) = (n, k)`, finally appends `(0, i)` and
returns the reversed partition list (the consed accumulator of `btPass` is
already the reversal of the source's `partitions`, so the final
`partitions[::-1]` is `(0, i)` consed onto the accumulator). -/
def min_abs_diff_partition (arr : List Int) (k : Nat) (fuel : Nat) : Option (List (Nat × Nat)) :=
  match btLoop arr fuel (arr.length, k, []) with
  | none => none
  | some (i, _, ps) => some ((0, i) :: ps)

/-- `chainFrom cur ps n` holds when the ranges `ps` are in order (`start`
of each range equals the current position, `start ≤ end`) and end exactly
at `n`. -/
def chainFrom : Nat → List (Nat × Nat) → Nat → Bool
  | cur, [], n => cur == n
  | cur, (s, e) :: rest, n => s == cur && decide (s ≤ e) && chainFrom e rest n

/-- `ps` is a list of exactly `k` contiguous `(start, end)` ranges that
appear in order and cover `[0, n)`. -/
def isOrderedPartition (n k : Nat) (ps : List (Nat × Nat)) : Bool :=
  ps.length == k && chainFrom 0 ps n

/-- Claim C1, failing-input evaluation.  On `arr = [0, 0, 0]`, `k = 3` the
source's backtracking (which lacks a `break` after a match) fires twice in
a single pass of `for x in range(i)` and returns `[(0,2), (2,1), (1,3)]`:
the middle range is inverted (start 2 > end 1) and index 1 lies in two
ranges, so the result is not `k` in-order contiguous ranges covering
`[0, 3)`, contradicting the claim and the function's own docstring. -/
theorem C1_min_abs_diff_partition_failing :
    min_abs_diff_partition [0, 0, 0] 3 5 = some [(0, 2), (2, 1), (1, 3)] ∧
    isOrderedPartition 3 3 [(0, 2), (2, 1), (1, 3)] = false := by
  exact ⟨by decide, by decide⟩

end Datapack

namespace Datapack

/-- First-fit placement of one item of size `s` into existing bins: the
inner `for idx in range(...)` loop shared by `ffd_check` and
`ffd_with_result`.  Returns the updated remaining capacities when some bin
has `bins[idx] >= size` (decrementing the first such bin), `none` when no
bin fits. -/
def placeFirstFit : List Int → Int → Option (List Int)
  | [], _ => none
  | b :: bs, s => if s ≤ b then some ((b - s) :: bs) else (placeFirstFit bs s).map (b :: ·)

/-- The item loop of `ffd_check`: place each size in order; `false` as soon
as an item fits in no bin (`not_found`), `true` when all items are placed. -/
def ffdCheckGo : List Int → List Int → Bool
  | [], _ => true
  | s :: rest, bins =>
    match placeFirstFit bins s with
    | some bins' => ffdCheckGo rest bins'
    | none => false

/-- `np.sort(a)[::-1]`: the values of `a` in descending order.
`insertionSort` is an ascending sort; `np.sort`'s default quicksort
produces the same value sequence. -/
def sortDesc (a : List Int) : List Int := (List.insertionSort (· ≤ ·) a).reverse

/-- `ffd_check(a, c, n)` from `base/datapack.py`: simulate first-fit
decreasing over `n` bins of capacity `c` (`bins = np.full((n,), c)`). -/
def ffd_check (a : List Int) (c : Int) (n : Nat) : Bool :=
  ffdCheckGo (sortDesc a) (List.replicate n c)

/-- `np.argsort(a)[::-1]`: item indices sorted ascending by value, then
reversed.  `np.argsort`'s default quicksort leaves the relative order of
equal values unspecified; this models it with a stable sort, one concrete
admissible order (no verified property depends on the order among equal
values). -/
def argsortDesc (a : List Int) : List Nat :=
  (List.insertionSort (fun i j => a.getD i 0 ≤ a.getD j 0) (List.range a.length)).reverse

/-- One item step of `ffd_with_result`: place item `id` of size `s` into
the first bin with `bins[idx] >= size` (decrement its remaining capacity,
append `id` to its index list), else open a new bin (`add_new`).  The
source's parallel lists `bins` / `bins_result`, always updated in lockstep
at the same index, are fused into one list of pairs. -/
def ffdStep (c : Int) (s : Int) (id : Nat) : List (Int × List Nat) → List (Int × List Nat)
  | [] => [(c - s, [id])]
  | (b, g) :: rest =>
    if s ≤ b then (b - s, g ++ [id]) :: rest
    else (b, g) :: ffdStep c s id rest

/-- The main loop of `ffd_with_result` over a given processing order `ids`
(each processed size is `a[id]`, i.e. the source's `a[indices[a_id]]`). -/
def ffdRun (a : List Int) (c : Int) (ids : List Nat) : List (Int × List Nat) :=
  ids.foldl (fun st id => ffdStep c (a.getD id 0) id st) []

/-- `ffd_with_result(a, c)` from `base/datapack.py`: process the items in
descending size order and return `bins_result`, the per-bin lists of item
indices. -/
def ffd_with_result (a : List Int) (c : Int) : List (List Nat) :=
  (ffdRun a c (argsortDesc a)).map (·.2)

/-- The unbounded first-fit step of `ffd_with_result` projected to
remaining capacities only. -/
def placeFFD (c : Int) (bins : List Int) (s : Int) : List Int :=
  match placeFirstFit bins s with
  | some bins' => bins'
  | none => bins ++ [c - s]

end Datapack

namespace Datapack

theorem placeFirstFit_length (s : Int) :
    ∀ (bins bins' : List Int), placeFirstFit bins s = some bins' → bins'.length = bins.length := by
  intro bins
  induction bins with
  | nil => intro bins' h; simp [placeFirstFit] at h
  | cons b bs ih =>
    intro bins' h
    by_cases hle : s ≤ b
    · simp [placeFirstFit, hle] at h
      subst h; simp
    · simp [placeFirstFit, hle] at h
      obtain ⟨u, hu, rfl⟩ := h
      simp [ih u hu]

theorem placeFirstFit_append_some (s : Int) :
    ∀ (bins bins' zs : List Int), placeFirstFit bins s = some bins' →
      placeFirstFit (bins ++ zs) s = some (bins' ++ zs) := by
  intro bins
  induction bins with
  | nil => intro bins' zs h; simp [placeFirstFit] at h
  | cons b bs ih =>
    intro bins' zs h
    by_cases hle : s ≤ b
    · simp [placeFirstFit, hle] at h
      subst h; simp [placeFirstFit, hle]
    · simp [placeFirstFit, hle] at h
      obtain ⟨u, hu, rfl⟩ := h
      simp [placeFirstFit, hle, ih u zs hu]

theorem placeFirstFit_append_none (s : Int) :
    ∀ (bins zs : List Int), placeFirstFit bins s = none →
      placeFirstFit (bins ++ zs) s = (placeFirstFit zs s).map (bins ++ ·) := by
  intro bins
  induction bins with
  | nil => intro zs _; simp
  | cons b bs ih =>
    intro zs h
    by_cases hle : s ≤ b
    · simp [placeFirstFit, hle] at h
    · simp [placeFirstFit, hle] at h
      simp [placeFirstFit, hle, ih zs h, Option.map_map]
      rfl

theorem placeFirstFit_replicate_fit (c s : Int) (m : Nat) (h : s ≤ c) :
    placeFirstFit (List.replicate (m + 1) c) s = some ((c - s) :: List.replicate m c) := by
  simp [List.replicate_succ, placeFirstFit, h]

theorem placeFirstFit_replicate_nofit (c s : Int) (h : ¬ s ≤ c) :
    ∀ (m : Nat), placeFirstFit (List.replicate m c) s = none := by
  intro m
  induction m with
  | zero => rfl
  | succ m ih => simp [List.replicate_succ, placeFirstFit, h, ih]

/-- Core of C7: if the bounded FFD simulation (on bins `ub` padded with `m`
fresh bins of capacity `c`) succeeds, then the unbounded FFD fold starting
from `ub` opens at most `m` extra bins. -/
theorem ffdCheck_bound (c : Int) :
    ∀ (sizes ub : List Int) (m : Nat),
      ffdCheckGo sizes (ub ++ List.replicate m c) = true →
      (sizes.foldl (placeFFD c) ub).length ≤ ub.length + m := by
  intro sizes
  induction sizes with
  | nil => intro ub m _; simp
  | cons s rest ih =>
    intro ub m h
    rw [List.foldl_cons]
    cases hfit : placeFirstFit ub s with
    | some ub' =>
      have hlen := placeFirstFit_length s ub ub' hfit
      have hpad := placeFirstFit_append_some s ub ub' (List.replicate m c) hfit
      rw [ffdCheckGo, hpad] at h
      have := ih ub' m h
      simpa [placeFFD, hfit, hlen] using this
    | none =>
      have hpad := placeFirstFit_append_none s ub (List.replicate m c) hfit
      cases m with
      | zero =>
        rw [ffdCheckGo] at h
        simp only [List.replicate_zero, List.append_nil, hfit] at h
        simp at h
      | succ m' =>
        by_cases hle : s ≤ c
        · have hrep := placeFirstFit_replicate_fit c s m' hle
          rw [ffdCheckGo, hpad, hrep] at h
          simp only [Option.map_some'] at h
          have harr : ub ++ (c - s) :: List.replicate m' c
              = (ub ++ [c - s]) ++ List.replicate m' c := by simp
          rw [harr] at h
          have := ih (ub ++ [c - s]) m' h
          simp only [List.length_append, List.length_cons, List.length_nil] at this
          have : (rest.foldl (placeFFD c) (ub ++ [c - s])).length ≤ ub.length + (m' + 1) := by
            omega
          simpa [placeFFD, hfit] using this
        · have hrep := placeFirstFit_replicate_nofit c s hle (m' + 1)
          rw [ffdCheckGo, hpad, hrep] at h
          simp at h

theorem ffdStep_fst (c s : Int) (id : Nat) :
    ∀ (st : List (Int × List Nat)),
      (ffdStep c s id st).map (·.1) = placeFFD c (st.map (·.1)) s := by
  intro st
  induction st with
  | nil => simp [ffdStep, placeFFD, placeFirstFit]
  | cons p rest ih =>
    obtain ⟨b, g⟩ := p
    by_cases hle : s ≤ b
    · simp [ffdStep, hle, placeFFD, placeFirstFit]
    · simp only [ffdStep, hle, if_false, List.map_cons]
      rw [ih]
      simp only [placeFFD, List.map_cons, placeFirstFit, hle, if_false]
      cases hfit : placeFirstFit (rest.map (·.1)) s with
      | some u => simp [hfit]
      | none => simp [hfit]

theorem ffdRun_fst (a : List Int) (c : Int) :
    ∀ (ids : List Nat) (st : List (Int × List Nat)),
      (ids.foldl (fun st id => ffdStep c (a.getD id 0) id st) st).map (·.1)
        = (ids.map (fun id => a.getD id 0)).foldl (placeFFD c) (st.map (·.1)) := by
  intro ids
  induction ids with
  | nil => intro st; rfl
  | cons id rest ih =>
    intro st
    rw [List.foldl_cons, List.map_cons, List.foldl_cons, ih, ffdStep_fst]

end Datapack

namespace Datapack

theorem map_getD_range (l : List Int) (d : Int) :
    (List.range l.length).map (fun i => l.getD i d) = l := by
  induction l with
  | nil => rfl
  | cons x xs ih =>
    rw [List.length_cons, List.range_succ_eq_map, List.map_cons, List.map_map]
    simp only [Function.comp_def, List.getD_cons_succ, List.getD_cons_zero]
    rw [ih]

/-- The sizes visited by `ffd_with_result` (values of `a` in `argsort`
order) are exactly the descending-sorted values used by `ffd_check`. -/
theorem argsortDesc_map_getD (a : List Int) :
    (argsortDesc a).map (fun i => a.getD i 0) = sortDesc a := by
  unfold argsortDesc sortDesc
  rw [List.map_reverse]
  congr 1
  haveI ht : IsTotal Nat (fun i j => a.getD i 0 ≤ a.getD j 0) :=
    ⟨fun i j => le_total (a.getD i 0) (a.getD j 0)⟩
  haveI htr : IsTrans Nat (fun i j => a.getD i 0 ≤ a.getD j 0) :=
    ⟨fun i j k h1 h2 => le_trans h1 h2⟩
  apply List.eq_of_perm_of_sorted (r := ((· ≤ ·) : Int → Int → Prop))
  · have h1 := (List.perm_insertionSort (fun i j => a.getD i 0 ≤ a.getD j 0)
      (List.range a.length)).map (fun i => a.getD i 0)
    rw [map_getD_range a 0] at h1
    exact h1.trans (List.perm_insertionSort _ a).symm
  · have hs := List.sorted_insertionSort (fun i j => a.getD i 0 ≤ a.getD j 0)
      (List.range a.length)
    exact List.Pairwise.map _ (fun i j h => h) hs
  · exact List.sorted_insertionSort _ a

/-- The concrete item list of the FFD scenario in the spec. -/
def ffdItems : List Int := [600, 500, 400, 400, 300, 200, 100]

/-- Claim C7.  First, generally: whenever `ffd_check(a, c, n)` returns `True`,
`ffd_with_result(a, c)` opens at most `n` bins (both process the same
descending value sequence; a successful run over `n` capacity-`c` bins
dominates the unbounded first-fit run).  Second, on the spec's concrete
scenario `a = [600, 500, 400, 400, 300, 200, 100]`, `c = 1000`:
`ffd_with_result` opens exactly 3 bins, `ffd_check(a, 1000, 3) = True`
and `ffd_check(a, 1000, 2) = False`. -/
theorem C7_ffd_check_implies_bins_bound :
    (∀ (a : List Int) (c : Int) (n : Nat),
      ffd_check a c n = true → (ffd_with_result a c).length ≤ n) ∧
    (ffd_with_result ffdItems 1000).length = 3 ∧
    ffd_check ffdItems 1000 3 = true ∧
    ffd_check ffdItems 1000 2 = false := by
  refine ⟨?_, by decide, by decide, by decide⟩
  intro a c n h
  unfold ffd_check at h
  have hb := ffdCheck_bound c (sortDesc a) [] n (by simpa using h)
  have hfst : (ffdRun a c (argsortDesc a)).map (·.1)
      = (sortDesc a).foldl (placeFFD c) [] := by
    rw [ffdRun, ffdRun_fst a c (argsortDesc a) [], argsortDesc_map_getD]
    rfl
  have hlen : (ffd_with_result a c).length = (ffdRun a c (argsortDesc a)).length := by
    simp [ffd_with_result]
  rw [hlen, ← List.length_map (ffdRun a c (argsortDesc a)) (·.1), hfst]
  simpa using hb

/-- Witness for C7: the general implication applied at a concrete input. -/
theorem C7_witness : (ffd_with_result [5, 4] 10).length ≤ 1 :=
  C7_ffd_check_implies_bins_bound.1 [5, 4] 10 1 (by decide)

end Datapack

namespace Datapack

theorem ffdStep_flatten_perm (c s : Int) (id : Nat) :
    ∀ (st : List (Int × List Nat)),
      ((ffdStep c s id st).map (·.2)).flatten.Perm (id :: (st.map (·.2)).flatten) := by
  intro st
  induction st with
  | nil => simp [ffdStep]
  | cons p rest ih =>
    obtain ⟨b, g⟩ := p
    by_cases hle : s ≤ b
    · simp only [ffdStep, hle, if_true, List.map_cons, List.flatten_cons]
      have harr : (g ++ [id]) ++ ((rest.map (·.2)).flatten)
          = g ++ id :: ((rest.map (·.2)).flatten) := by simp
      rw [harr]
      exact List.perm_middle
    · simp only [ffdStep, hle, if_false, List.map_cons, List.flatten_cons]
      exact (ih.append_left g).trans List.perm_middle

theorem ffdRun_flatten_perm (a : List Int) (c : Int) :
    ∀ (ids : List Nat) (st : List (Int × List Nat)),
      (((ids.foldl (fun st id => ffdStep c (a.getD id 0) id st) st).map (·.2)).flatten).Perm
        (ids ++ (st.map (·.2)).flatten) := by
  intro ids
  induction ids with
  | nil => intro st; simp
  | cons id rest ih =>
    intro st
    rw [List.foldl_cons]
    refine (ih (ffdStep c (a.getD id 0) id st)).trans ?_
    refine (List.Perm.append_left rest (ffdStep_flatten_perm c _ id st)).trans ?_
    exact List.perm_middle

/-- Invariant of the `ffd_with_result` state: in every bin, the total item
size already placed plus the remaining capacity equals `c`, and the
remaining capacity is nonnegative. -/
def binsInv (a : List Int) (c : Int) (st : List (Int × List Nat)) : Prop :=
  ∀ p ∈ st, ((p.2.map (fun id => a.getD id 0)).sum + p.1 = c) ∧ 0 ≤ p.1

theorem ffdStep_inv (a : List Int) (c : Int) (id : Nat) (hs : a.getD id 0 ≤ c) :
    ∀ (st : List (Int × List Nat)), binsInv a c st →
      binsInv a c (ffdStep c (a.getD id 0) id st) := by
  intro st
  induction st with
  | nil =>
    intro _ p hp
    simp only [ffdStep, List.mem_singleton] at hp
    subst hp
    refine ⟨by simp, ?_⟩
    show (0 : Int) ≤ c - a.getD id 0
    omega
  | cons q rest ih =>
    obtain ⟨b, g⟩ := q
    intro hinv
    have hhead := hinv (b, g) (by simp)
    have htail : binsInv a c rest := fun p hp => hinv p (List.mem_cons_of_mem _ hp)
    by_cases hle : a.getD id 0 ≤ b
    · intro p hp
      simp only [ffdStep, hle, if_true, List.mem_cons] at hp
      rcases hp with hp | hp
      · subst hp
        constructor
        · simp only [List.map_append, List.sum_append, List.map_cons, List.map_nil,
            List.sum_cons, List.sum_nil]
          have := hhead.1
          simp only at this
          omega
        · simp only
          omega
      · exact htail p hp
    · intro p hp
      simp only [ffdStep, hle, if_false, List.mem_cons] at hp
      rcases hp with hp | hp
      · subst hp; exact hhead
      · exact ih htail p hp

theorem ffdRun_inv (a : List Int) (c : Int) :
    ∀ (ids : List Nat) (st : List (Int × List Nat)),
      (∀ id ∈ ids, a.getD id 0 ≤ c) → binsInv a c st →
      binsInv a c (ids.foldl (fun st id => ffdStep c (a.getD id 0) id st) st) := by
  intro ids
  induction ids with
  | nil => intro st _ h; exact h
  | cons id rest ih =>
    intro st hids hinv
    rw [List.foldl_cons]
    exact ih _ (fun i hi => hids i (List.mem_cons_of_mem _ hi))
      (ffdStep_inv a c id (hids id (List.mem_cons_self _ _)) st hinv)

/-- Claim C10.  For every item list `a` and capacity `c`: the bins returned
by `ffd_with_result(a, c)` partition the index set `{0, ..., |a| - 1}`
(their concatenation is a permutation of `range |a|`, so every index lies
in exactly one bin); and if every item size is at most `c`, the total item
size placed in each returned bin is at most `c`. -/
theorem C10_ffd_with_result_partition :
    (∀ (a : List Int) (c : Int),
      (ffd_with_result a c).flatten.Perm (List.range a.length)) ∧
    (∀ (a : List Int) (c : Int), (∀ x ∈ a, x ≤ c) →
      ∀ g ∈ ffd_with_result a c, (g.map (fun id => a.getD id 0)).sum ≤ c) := by
  constructor
  · intro a c
    have h := ffdRun_flatten_perm a c (argsortDesc a) []
    simp only [List.map_nil, List.flatten_nil, List.append_nil] at h
    refine (h.trans ?_)
    exact (List.reverse_perm _).trans (List.perm_insertionSort _ _)
  · intro a c hle g hg
    have hids : ∀ id ∈ argsortDesc a, a.getD id 0 ≤ c := by
      intro id hid
      have hmem : id ∈ List.range a.length :=
        ((List.reverse_perm _).trans (List.perm_insertionSort _ _)).mem_iff.mp hid
      have hlt : id < a.length := List.mem_range.mp hmem
      have : a.getD id 0 ∈ a := by
        rw [List.getD_eq_getElem a 0 hlt]
        exact List.getElem_mem hlt
      exact hle _ this
    have hinv := ffdRun_inv a c (argsortDesc a) [] hids (by intro p hp; simp at hp)
    simp only [ffd_with_result, List.mem_map] at hg
    obtain ⟨p, hp, rfl⟩ := hg
    have := hinv p hp
    omega

/-- Witness for C10: the theorem applied at the concrete input
`a = [2, 1]`, `c = 3`, whose single returned bin is `[0, 1]`. -/
theorem C10_witness :
    (ffd_with_result [2, 1] 3).flatten.Perm (List.range 2) ∧
    (([0, 1] : List Nat).map (fun id => ([2, 1] : List Int).getD id 0)).sum ≤ 3 :=
  ⟨C10_ffd_with_result_partition.1 [2, 1] 3,
   C10_ffd_with_result_partition.2 [2, 1] 3 (by decide) [0, 1] (by decide)⟩

end Datapack

namespace MasterWorker

/-- `ModelName = (role, replica_id)` from `reallm.api.core.config`. -/
structure ModelName where
  role : String
  replica_id : Nat
deriving DecidableEq

/-- `ModelShardID`: a handler address (`model_name`, `parallelism_rank`);
the topology carried by the source object is kept separate here. -/
structure ModelShardID where
  model_name : ModelName
  parallelism_rank : Nat
deriving DecidableEq

/-- Modelled from the spec: `PipeModelDataParallelTopology`
(`reallm/base/topology.py` is not under `src/`).  Spec section 3:
"Topology = (pipe_dim, model_dim, data_dim).  For parallelism rank r the
topology yields a (pipe, model, data) coordinate; the dp-head of
data-slice i is the rank with pipe=last, model=0, data=i." -/
structure Topo where
  pipeDim : Nat
  modelDim : Nat
  dataDim : Nat
deriving DecidableEq

/-- `topo.world_size()`. -/
def Topo.worldSize (t : Topo) : Nat := t.pipeDim * t.modelDim * t.dataDim

/-- Modelled from the spec: `topo.get_rank(pipe=p, model=m, data=d)` with
axis order (pipe, model, data), data fastest-varying. -/
def Topo.getRank (t : Topo) (p m d : Nat) : Nat := (p * t.modelDim + m) * t.dataDim + d

/-- Modelled from the spec: the (pipe, model, data) coordinate of a
parallelism rank, the inverse of `Topo.getRank`. -/
def Topo.coords (t : Topo) (r : Nat) : Nat × Nat × Nat :=
  (r / (t.modelDim * t.dataDim), r / t.dataDim % t.modelDim, r % t.dataDim)

/-- The RPC attributes read and written by the batch-size promotion loop of
`MasterWorker._configure` (lines 733-741). -/
structure RPCConf where
  name : String
  model_name : ModelName
  min_n_seqs : Nat
  min_n_seqs_per_dp : Nat
deriving DecidableEq

/-- One iteration of the promotion loop of `MasterWorker._configure`: if
`rpc.min_n_seqs < dp_size * pp_size`, log a warning (second component
`true`), set `min_n_seqs_per_dp = 1` and enlarge `min_n_seqs` to
`dp_size * pp_size`; otherwise leave the RPC untouched. -/
def promoteMinNSeqs (model_topos : ModelName → Topo) (r : RPCConf) : RPCConf × Bool :=
  let dpSize := (model_topos r.model_name).dataDim
  let ppSize := (model_topos r.model_name).pipeDim
  if r.min_n_seqs < dpSize * ppSize then
    ({ r with min_n_seqs_per_dp := 1, min_n_seqs := dpSize * ppSize }, true)
  else (r, false)

/-- The whole `for rpc in self.__model_rpcs` promotion loop. -/
def configureRPCs (model_topos : ModelName → Topo) (rpcs : List RPCConf) :
    List (RPCConf × Bool) :=
  rpcs.map (promoteMinNSeqs model_topos)

/-- Claim C8.  At configuration time every RPC with
`min_n_seqs < dp_size * pp_size` is promoted to exactly
`dp_size * pp_size` with `min_n_seqs_per_dp = 1` and a warning logged,
and every RPC with `min_n_seqs >= dp_size * pp_size` is left unchanged
(and silent). -/
theorem C8_min_n_seqs_promotion (model_topos : ModelName → Topo) (rpcs : List RPCConf)
    (r : RPCConf) (hr : r ∈ rpcs) :
    (promoteMinNSeqs model_topos r ∈ configureRPCs model_topos rpcs) ∧
    (r.min_n_seqs < (model_topos r.model_name).dataDim * (model_topos r.model_name).pipeDim →
      (promoteMinNSeqs model_topos r).1.min_n_seqs
          = (model_topos r.model_name).dataDim * (model_topos r.model_name).pipeDim ∧
      (promoteMinNSeqs model_topos r).1.min_n_seqs_per_dp = 1 ∧
      (promoteMinNSeqs model_topos r).2 = true) ∧
    ((model_topos r.model_name).dataDim * (model_topos r.model_name).pipeDim ≤ r.min_n_seqs →
      promoteMinNSeqs model_topos r = (r, false)) := by
  refine ⟨List.mem_map_of_mem _ hr, ?_, ?_⟩
  · intro h
    simp [promoteMinNSeqs, h]
  · intro h
    simp [promoteMinNSeqs, Nat.not_lt.mpr h]

/-- Witness for C8 at a concrete input: topology `(pipe, model, data)
= (2, 1, 2)` gives `dp_size * pp_size = 4`; an RPC with `min_n_seqs = 2`
is promoted to 4 with the warning, and one with `min_n_seqs = 4` is kept. -/
theorem C8_witness :
    ((promoteMinNSeqs (fun _ => ⟨2, 1, 2⟩) ⟨"train", ⟨"actor", 0⟩, 2, 2⟩).1.min_n_seqs = 4 ∧
     (promoteMinNSeqs (fun _ => ⟨2, 1, 2⟩) ⟨"train", ⟨"actor", 0⟩, 2, 2⟩).1.min_n_seqs_per_dp = 1 ∧
     (promoteMinNSeqs (fun _ => ⟨2, 1, 2⟩) ⟨"train", ⟨"actor", 0⟩, 2, 2⟩).2 = true) ∧
    promoteMinNSeqs (fun _ => ⟨2, 1, 2⟩) ⟨"gen", ⟨"actor", 0⟩, 4, 1⟩
      = (⟨"gen", ⟨"actor", 0⟩, 4, 1⟩, false) :=
  ⟨(C8_min_n_seqs_promotion (fun _ => ⟨2, 1, 2⟩) [⟨"train", ⟨"actor", 0⟩, 2, 2⟩]
      ⟨"train", ⟨"actor", 0⟩, 2, 2⟩ (by simp)).2.1 (by decide),
   (C8_min_n_seqs_promotion (fun _ => ⟨2, 1, 2⟩) [⟨"gen", ⟨"actor", 0⟩, 4, 1⟩]
      ⟨"gen", ⟨"actor", 0⟩, 4, 1⟩ (by simp)).2.2 (by decide)⟩

end MasterWorker

namespace MasterWorker

/-- Python `s.startswith("/")`. -/
def startsWithSlash (s : String) : Bool := s.data.head? == some '/'

/-- Python `s.endswith("/")`. -/
def endsWithSlash (s : String) : Bool := s.data.getLast? == some '/'

/-- `os.path.join(a, b)` (posixpath) for two components: an absolute second
component resets the path; otherwise the parts are glued, inserting the
separator unless `a` is empty or already ends with the separator.  The
source's three-argument call folds from the left. -/
def ospathJoin (a b : String) : String :=
  if startsWithSlash b then b
  else if a == "" || endsWithSlash a then a ++ b
  else a ++ "/" ++ b

/-- The f-string `f"epoch{epoch}epochstep{epoch_step}globalstep{global_step}"`
of `model_save_thread_func`. -/
def saveDirName (epoch epoch_step global_step : Nat) : String :=
  "epoch" ++ toString epoch ++ "epochstep" ++ toString epoch_step ++
    "globalstep" ++ toString global_step

/-- One drain of the `model_save_thread_func` loop (lines 709-719): filter
the handlers to `replica_id == 0` and pair each with its save directory
`os.path.join(model_save_root, s.model_name.role, f"epoch{..}...")`. -/
def modelSaveRequests (handlers : List ModelShardID) (model_save_root : String)
    (epoch epoch_step global_step : Nat) : List (ModelShardID × String) :=
  (handlers.filter (fun s => s.model_name.replica_id == 0)).map
    (fun s => (s, ospathJoin (ospathJoin model_save_root s.model_name.role)
      (saveDirName epoch epoch_step global_step)))

theorem saveDirName_startsWithSlash (e s g : Nat) :
    startsWithSlash (saveDirName e s g) = false := by
  simp only [startsWithSlash, saveDirName, String.data_append]
  rfl

theorem append_ne_empty_of_ne (a b : String) (h : a ≠ "") : a ++ b ≠ "" := by
  intro hc
  apply h
  have : (a ++ b).data = a.data ++ b.data := String.data_append a b
  rw [hc] at this
  have ha : a.data = [] := by
    have := List.append_eq_nil.mp this.symm
    exact this.1
  cases a
  simp at ha
  simp [ha]

theorem C9_join_eq (root role dir : String) (hroot : root ≠ "")
    (hrootE : endsWithSlash root = false) (hrole : role ≠ "")
    (hroleS : startsWithSlash role = false) (hroleE : endsWithSlash role = false)
    (hdirS : startsWithSlash dir = false) :
    ospathJoin (ospathJoin root role) dir = root ++ "/" ++ role ++ "/" ++ dir := by
  have h1 : ospathJoin root role = root ++ "/" ++ role := by
    rw [ospathJoin, hroleS, if_neg (by simp)]
    rw [if_neg]
    simp only [Bool.or_eq_true, beq_iff_eq, hrootE]
    intro h
    rcases h with h | h
    · exact hroot h
    · cases h
  rw [h1, ospathJoin, hdirS, if_neg (by simp)]
  rw [if_neg]
  simp only [Bool.or_eq_true, beq_iff_eq]
  intro h
  rcases h with h | h
  · exact append_ne_empty_of_ne (root ++ "/") role (append_ne_empty_of_ne root "/" hroot) h
  · rw [endsWithSlash] at h
    have hd : (root ++ "/" ++ role).data = (root ++ "/").data ++ role.data :=
      String.data_append _ _
    rw [hd, List.getLast?_append_of_ne_nil] at h
    · rw [endsWithSlash] at hroleE
      rw [h] at hroleE
      cases hroleE
    · intro hc
      apply hrole
      cases role
      simp at hc
      simp [hc]

/-- Claim C9.  The save coroutine requests a save only from handlers with
`model_name.replica_id == 0` (exactly the replica-0 handlers, in order),
and for each such handler the directory it names is
`<model_save_root>/<role>/epoch{E}epochstep{S}globalstep{G}` with `E`,
`S`, `G` taken from the save-queue entry (for non-degenerate root and role
strings: nonempty, role not absolute, neither ending in the separator). -/
theorem C9_save_requests (handlers : List ModelShardID) (root : String) (e s g : Nat)
    (hne : root ≠ "") (hend : endsWithSlash root = false) :
    ((modelSaveRequests handlers root e s g).map (·.1)
        = handlers.filter (fun h => h.model_name.replica_id == 0)) ∧
    (∀ p ∈ modelSaveRequests handlers root e s g,
      p.1.model_name.replica_id = 0 ∧
      (p.1.model_name.role ≠ "" → startsWithSlash p.1.model_name.role = false →
        endsWithSlash p.1.model_name.role = false →
        p.2 = root ++ "/" ++ p.1.model_name.role ++ "/" ++ saveDirName e s g)) := by
  constructor
  · rw [modelSaveRequests, List.map_map]
    simp [Function.comp_def]
  · intro p hp
    rw [modelSaveRequests, List.mem_map] at hp
    obtain ⟨q, hq, rfl⟩ := hp
    have hq0 : q.model_name.replica_id = 0 := by
      have := List.of_mem_filter hq
      simpa using this
    refine ⟨hq0, ?_⟩
    intro h1 h2 h3
    exact C9_join_eq root q.model_name.role (saveDirName e s g) hne hend h1 h2 h3
      (saveDirName_startsWithSlash e s g)

/-- Witness for C9 at a concrete input. -/
theorem C9_witness :
    ((modelSaveRequests [⟨⟨"actor", 0⟩, 0⟩, ⟨⟨"actor", 1⟩, 0⟩] "root" 1 2 3).map (·.1)
        = [⟨⟨"actor", 0⟩, 0⟩]) ∧
    ospathJoin (ospathJoin "root" "actor") (saveDirName 1 2 3)
        = "root" ++ "/" ++ "actor" ++ "/" ++ saveDirName 1 2 3 :=
  ⟨(C9_save_requests [⟨⟨"actor", 0⟩, 0⟩, ⟨⟨"actor", 1⟩, 0⟩] "root" 1 2 3
      (by decide) (by decide)).1.trans (by decide),
   ((C9_save_requests [⟨⟨"actor", 0⟩, 0⟩] "root" 1 2 3 (by decide) (by decide)).2
      (⟨⟨"actor", 0⟩, 0⟩, ospathJoin (ospathJoin "root" "actor") (saveDirName 1 2 3))
      (by simp [modelSaveRequests]) ).2 (by decide) (by decide) (by decide)⟩

end MasterWorker

namespace MasterWorker

/-- State of one request coroutine of `model_rpc_request_func` together
with the traversal counters of its children (incremented by reply
coroutines, possibly at any await point).  `batches` records
`len(sample.seqlens)` of every batch fetched so far, so `batches.sum` is
`this_rpc_consumed_seqs`; `guardPassed` is true between the exit of the
back-pressure `while` loop and the completion of
`buffer.get_batch_for_rpc`. -/
structure ReqState where
  guardPassed : Bool
  batches : List Nat
  traversal : Nat → Nat

/-- `this_rpc_consumed_seqs`. -/
def consumedSeqs (s : ReqState) : Nat := s.batches.sum

/-- The negation of the waiting condition
`any(this_rpc_consumed_seqs >= (ctrl.rpc_traversal[c.name] + 1) * c.max_n_seqs
for c in rpc.children_rpcs)`: the coroutine leaves the `while` loop only
when the consumed count is below `(traversal(c) + 1) * c.max_n_seqs` for
every child `c` (children indexed by position; `childMax` holds their
`max_n_seqs`). -/
def backpressureOK (childMax : List Nat) (s : ReqState) : Prop :=
  ∀ i < childMax.length, consumedSeqs s < (s.traversal i + 1) * childMax.getD i 0

/-- Interleaved small-step semantics of the request coroutine (guard check,
then batch fetch) and of the children's reply coroutines (traversal
increments, `ctrl.rpc_traversal[rpc.name] += 1`). -/
inductive ReqStep (childMax : List Nat) : ReqState → ReqState → Prop
  | passGuard (s : ReqState) (h : s.guardPassed = false) (hg : backpressureOK childMax s) :
      ReqStep childMax s { s with guardPassed := true }
  | fetch (s : ReqState) (n : Nat) (h : s.guardPassed = true) :
      ReqStep childMax s
        { guardPassed := false, batches := s.batches ++ [n], traversal := s.traversal }
  | childComplete (s : ReqState) (i : Nat) :
      ReqStep childMax s
        { s with traversal := Function.update s.traversal i (s.traversal i + 1) }

/-- States reachable from the start of the coroutine: nothing consumed, no
guard passed, all traversal counters zero. -/
inductive ReqReachable (childMax : List Nat) : ReqState → Prop
  | init : ReqReachable childMax ⟨false, [], fun _ => 0⟩
  | step {s t : ReqState} : ReqReachable childMax s → ReqStep childMax s t →
      ReqReachable childMax t

theorem guard_invariant (childMax : List Nat) :
    ∀ s, ReqReachable childMax s → s.guardPassed = true → backpressureOK childMax s := by
  intro s hs
  induction hs with
  | init => intro h; cases h
  | @step s t hr hstep ih =>
    cases hstep with
    | passGuard h hg => intro _; exact hg
    | fetch n h => intro hph; cases hph
    | childComplete i =>
      intro hph
      have hbp := ih hph
      intro j hj
      have hj' := hbp j hj
      by_cases hji : j = i
      · subst hji
        simp only [consumedSeqs] at hj' ⊢
        simp only [Function.update_same]
        calc s.batches.sum < (s.traversal j + 1) * childMax.getD j 0 := hj'
          _ ≤ (s.traversal j + 1 + 1) * childMax.getD j 0 :=
            Nat.mul_le_mul_right _ (by omega)
      · simpa [consumedSeqs, Function.update_noteq hji] using hj'

theorem sum_of_all_eq (l : List Nat) (v : Nat) (h : ∀ b ∈ l, b = v) :
    l.sum = v * l.length := by
  induction l with
  | nil => simp
  | cons x xs ih =>
    simp only [List.sum_cons, List.length_cons]
    rw [h x (List.mem_cons_self _ _), ih (fun b hb => h b (List.mem_cons_of_mem _ hb))]
    ring

theorem fetch_count_bound :
    ∀ s, ReqReachable [16] s → (∀ b ∈ s.batches, b = 16) →
      s.batches.length ≤ s.traversal 0 + 1 := by
  intro s hs
  induction hs with
  | init => intro _; simp
  | @step s t hr hstep ih =>
    cases hstep with
    | passGuard h hg => intro hb; exact ih hb
    | fetch n h =>
      intro hb
      have hall : ∀ b ∈ s.batches, b = 16 := fun b hbm => hb b (List.mem_append_left _ hbm)
      have hlen := ih hall
      have hbp := guard_invariant [16] s hr h
      have h0 := hbp 0 (by simp)
      have hsum : s.batches.sum = 16 * s.batches.length := sum_of_all_eq _ _ hall
      have h0' : 16 * s.batches.length < (s.traversal 0 + 1) * 16 := by
        simpa [consumedSeqs, hsum] using h0
      simp only [List.length_append, List.length_cons, List.length_nil]
      omega
    | childComplete i =>
      intro hb
      have hlen := ih hb
      by_cases h0i : (0 : Nat) = i
      · subst h0i
        simp only [Function.update_same]
        omega
      · simp only
        rw [Function.update_noteq h0i]
        exact hlen

/-- Claim C4.  First, generally: for every child-`max_n_seqs` vector, in any
reachable state in which the request coroutine is past the back-pressure
guard (so a fetch is the next action of that coroutine), the consumed
sequence count is strictly below `(traversal(c) + 1) * c.max_n_seqs` for
every child `c` — i.e. a batch is never fetched while some child is
over-run, and the bound still holds at fetch time because traversal
counters only grow.  Second, concretely: for a `gen -> train` DFG with
`gen.max_n_seqs = train.max_n_seqs = 16` (full batches of 16), whenever
gen has issued three batches, train's traversal counter is at least 1:
gen never issues a third batch before train completes its first. -/
theorem C4_child_backpressure :
    (∀ (childMax : List Nat) (s : ReqState), ReqReachable childMax s →
      s.guardPassed = true → backpressureOK childMax s) ∧
    (∀ s : ReqState, ReqReachable [16] s → (∀ b ∈ s.batches, b = 16) →
      3 ≤ s.batches.length → 1 ≤ s.traversal 0) := by
  constructor
  · exact fun childMax s hr => guard_invariant childMax s hr
  · intro s hr hb h3
    have := fetch_count_bound s hr hb
    omega

/-- Witness for C4: a concrete reachable run in which gen fetched three
full batches of 16 only after train completed twice; the theorem yields
that train's traversal counter is (at least) 1. -/
theorem C4_witness :
    1 ≤ (ReqState.mk false [16, 16, 16]
      (Function.update (Function.update (fun _ => 0) 0 1) 0 2)).traversal 0 := by
  have h0 : ReqReachable [16] ⟨false, [], fun _ => 0⟩ := ReqReachable.init
  have hg1 : backpressureOK [16] ⟨false, [], fun _ => 0⟩ := by
    intro i hi
    have : i = 0 := by simpa using hi
    subst this
    simp [backpressureOK, consumedSeqs]
  have h1 : ReqReachable [16] ⟨true, [], fun _ => 0⟩ :=
    h0.step (ReqStep.passGuard _ rfl hg1)
  have h2 : ReqReachable [16] ⟨false, [16], fun _ => 0⟩ :=
    h1.step (ReqStep.fetch _ 16 rfl)
  have h3 : ReqReachable [16]
      ⟨false, [16], Function.update (fun _ => 0) 0 1⟩ :=
    h2.step (ReqStep.childComplete _ 0)
  have h4 : ReqReachable [16]
      ⟨false, [16], Function.update (Function.update (fun _ => 0) 0 1) 0 2⟩ := by
    have := h3.step (ReqStep.childComplete _ 0)
    simpa using this
  have hg2 : backpressureOK [16]
      ⟨false, [16], Function.update (Function.update (fun _ => 0) 0 1) 0 2⟩ := by
    intro i hi
    have : i = 0 := by simpa using hi
    subst this
    simp [backpressureOK, consumedSeqs]
  have h5 : ReqReachable [16]
      ⟨true, [16], Function.update (Function.update (fun _ => 0) 0 1) 0 2⟩ :=
    h4.step (ReqStep.passGuard _ rfl hg2)
  have h6 : ReqReachable [16]
      ⟨false, [16, 16], Function.update (Function.update (fun _ => 0) 0 1) 0 2⟩ :=
    h5.step (ReqStep.fetch _ 16 rfl)
  have hg3 : backpressureOK [16]
      ⟨false, [16, 16], Function.update (Function.update (fun _ => 0) 0 1) 0 2⟩ := by
    intro i hi
    have : i = 0 := by simpa using hi
    subst this
    simp [backpressureOK, consumedSeqs]
  have h7 : ReqReachable [16]
      ⟨true, [16, 16], Function.update (Function.update (fun _ => 0) 0 1) 0 2⟩ :=
    h6.step (ReqStep.passGuard _ rfl hg3)
  have h8 : ReqReachable [16]
      ⟨false, [16, 16, 16], Function.update (Function.update (fun _ => 0) 0 1) 0 2⟩ :=
    h7.step (ReqStep.fetch _ 16 rfl)
  exact C4_child_backpressure.2 _ h8 (by intro b hbm; simpa using hbm) (by simp)

end MasterWorker

namespace MasterWorker

/-- `self.__mwid2msids` of `MasterWorker._configure` groups the
`msid2mwid` items by worker id (dict values in first-occurrence order);
the handler list `[vs[0] for vs in self.__mwid2msids.values()]` used when
posting `clear_data_cache` is therefore the first handler of each distinct
worker id, in first-occurrence order.  `m` is the `msid2mwid` item list
`(handler, worker id)`. -/
def firstHandlerPerWid : List (ModelShardID × Nat) → List (ModelShardID × Nat)
  | [] => []
  | p :: rest => p :: (firstHandlerPerWid rest).filter (fun q => q.2 != p.2)

theorem firstHandlerPerWid_sub :
    ∀ (m : List (ModelShardID × Nat)), ∀ p ∈ firstHandlerPerWid m, p ∈ m := by
  intro m
  induction m with
  | nil => intro p hp; cases hp
  | cons q rest ih =>
    intro p hp
    rw [firstHandlerPerWid] at hp
    rcases List.mem_cons.mp hp with h | h
    · exact h ▸ List.mem_cons_self _ _
    · exact List.mem_cons_of_mem _ (ih p (List.mem_of_mem_filter h))

theorem firstHandlerPerWid_nodup :
    ∀ (m : List (ModelShardID × Nat)), ((firstHandlerPerWid m).map (·.2)).Nodup := by
  intro m
  induction m with
  | nil => exact List.nodup_nil
  | cons q rest ih =>
    rw [firstHandlerPerWid, List.map_cons, List.nodup_cons]
    constructor
    · intro hmem
      rw [List.mem_map] at hmem
      obtain ⟨x, hx, hxe⟩ := hmem
      have := List.of_mem_filter hx
      rw [hxe] at this
      simp at this
    · exact List.Nodup.sublist
        (List.Sublist.map (·.2) (List.filter_sublist (firstHandlerPerWid rest))) ih

theorem firstHandlerPerWid_covers :
    ∀ (m : List (ModelShardID × Nat)), ∀ p ∈ m,
      p.2 ∈ (firstHandlerPerWid m).map (·.2) := by
  intro m
  induction m with
  | nil => intro p hp; cases hp
  | cons q rest ih =>
    intro p hp
    rw [firstHandlerPerWid, List.map_cons]
    rcases List.mem_cons.mp hp with h | h
    · exact h ▸ List.mem_cons_self _ _
    · by_cases hw : p.2 = q.2
      · exact hw ▸ List.mem_cons_self _ _
      · apply List.mem_cons_of_mem
        have hm := ih p h
        rw [List.mem_map] at hm ⊢
        obtain ⟨x, hx, hxe⟩ := hm
        refine ⟨x, List.mem_filter.mpr ⟨hx, ?_⟩, hxe⟩
        simp [hxe, hw]

/-- A request id: (step number, position in the posted handler list). -/
abbrev ReqId := Nat × Nat

/-- The payloads posted for the step-`t` `clear_data_cache`: one per worker
id (the first handler of each distinct worker id), all carrying the
current `training_buffer_indices`. -/
def clearPosts (m : List (ModelShardID × Nat)) (t : Nat) (idxs : List Nat) :
    List ((ModelShardID × Nat) × List Nat × ReqId) :=
  ((firstHandlerPerWid m).enum).map (fun q => (q.2, idxs, (t, q.1)))

/-- The request ids of the step-`t` `clear_data_cache` posts. -/
def clearIds (m : List (ModelShardID × Nat)) (t : Nat) : List ReqId :=
  ((firstHandlerPerWid m).enum).map (fun q => (t, q.1))

/-- Trace of one `_poll` tail: first the acknowledgements blocked on
(`stream.poll(block=True, ...)` over the previous step's request ids),
then the posts of this step's `clear_data_cache`. -/
structure ClearStepTrace where
  awaited : List ReqId
  posted : List ((ModelShardID × Nat) × List Nat × ReqId)
deriving DecidableEq

instance : Inhabited ClearStepTrace := ⟨⟨[], []⟩⟩

/-- The `_poll` tail (master_worker lines 1145-1156) as a function of the
outstanding request ids (`self.__clear_data_cache_reqids`): if a previous
clear is outstanding, block on every one of its acknowledgements; then
post the new `clear_data_cache` to one handler per worker id, all carrying
`training_buffer_indices`; the new request ids become outstanding. -/
def pollClearTail (m : List (ModelShardID × Nat)) (indices : List Nat) (t : Nat)
    (outstanding : Option (List ReqId)) : ClearStepTrace × Option (List ReqId) :=
  ({ awaited := outstanding.getD [], posted := clearPosts m t indices },
   some ((clearPosts m t indices).map (fun q => q.2.2)))

theorem clearPosts_ids (m : List (ModelShardID × Nat)) (t : Nat) (idxs : List Nat) :
    (clearPosts m t idxs).map (fun q => q.2.2) = clearIds m t := by
  simp only [clearPosts, clearIds, List.map_map]
  rfl

theorem clearPosts_wids (m : List (ModelShardID × Nat)) (t : Nat) (idxs : List Nat) :
    (clearPosts m t idxs).map (fun q => q.1.2) = (firstHandlerPerWid m).map (·.2) := by
  simp only [clearPosts, List.map_map]
  have : ((fun q => q.1.2) ∘ fun (q : Nat × (ModelShardID × Nat)) => (q.2, idxs, (t, q.1)))
      = ((·.2) ∘ Prod.snd) := rfl
  rw [this, ← List.map_map, List.enum_map_snd]

/-- The master's run over consecutive `_poll` steps. -/
def runClearGo (m : List (ModelShardID × Nat)) :
    Nat → Option (List ReqId) → List (List Nat) → List ClearStepTrace
  | _, _, [] => []
  | t, outstanding, idx :: rest =>
    (pollClearTail m idx t outstanding).1 ::
      runClearGo m (t + 1) (pollClearTail m idx t outstanding).2 rest

/-- A full run: initially `self.__clear_data_cache_reqids = None`. -/
def runClearSteps (m : List (ModelShardID × Nat)) (idxSets : List (List Nat)) :
    List ClearStepTrace :=
  runClearGo m 0 none idxSets

theorem runClearGo_spec (m : List (ModelShardID × Nat)) :
    ∀ (idxSets : List (List Nat)) (t : Nat) (outs : Option (List ReqId)),
      (runClearGo m t outs idxSets).length = idxSets.length ∧
      (∀ i, i < idxSets.length →
        ((runClearGo m t outs idxSets).getD i default).posted
            = clearPosts m (t + i) (idxSets.getD i []) ∧
        ((runClearGo m t outs idxSets).getD i default).awaited
            = (if i = 0 then outs.getD [] else clearIds m (t + i - 1))) := by
  intro idxSets
  induction idxSets with
  | nil =>
    intro t outs
    exact ⟨rfl, fun i hi => absurd hi (by simp)⟩
  | cons idx rest ih =>
    intro t outs
    constructor
    · simp only [runClearGo, List.length_cons, (ih (t + 1) _).1]
    · intro i hi
      cases i with
      | zero =>
        constructor
        · simp [runClearGo, pollClearTail]
        · simp [runClearGo, pollClearTail]
      | succ j =>
        have hj : j < rest.length := by simpa using hi
        have hih := (ih (t + 1) (some ((clearPosts m t idx).map (fun q => q.2.2)))).2 j hj
        constructor
        · have h1 := hih.1
          simp only [runClearGo, List.getD_cons_succ, pollClearTail]
          rw [h1]
          congr 1
          omega
        · have h2 := hih.2
          simp only [runClearGo, List.getD_cons_succ, pollClearTail]
          rw [h2]
          cases j with
          | zero => simp [clearPosts_ids]
          | succ j' =>
            rw [if_neg (by omega), if_neg (by omega)]
            congr 1
            omega

/-- Claim C6.  For every run and every step `i`: the master posts
`clear_data_cache` to exactly one handler per worker id (the posted worker
ids are pairwise distinct and cover every worker id of `msid2mwid`), every
posted payload carries the step's `training_buffer_indices`, and the step
first blocks on all acknowledgements of the previous step's clear (step 0
awaits nothing; step `j + 1` awaits exactly the request ids posted at step
`j`), so at most one clear request set is ever outstanding. -/
theorem C6_clear_at_most_one_outstanding (m : List (ModelShardID × Nat))
    (idxSets : List (List Nat)) (i : Nat) (hi : i < idxSets.length) :
    ((((runClearSteps m idxSets).getD i default).posted.map (fun q => q.1.2)).Nodup) ∧
    (∀ p ∈ m, p.2 ∈ ((runClearSteps m idxSets).getD i default).posted.map (fun q => q.1.2)) ∧
    (∀ q ∈ ((runClearSteps m idxSets).getD i default).posted,
      q.1 ∈ m ∧ q.2.1 = idxSets.getD i []) ∧
    (i = 0 → ((runClearSteps m idxSets).getD i default).awaited = []) ∧
    (∀ j, i = j + 1 → ((runClearSteps m idxSets).getD i default).awaited
        = ((runClearSteps m idxSets).getD j default).posted.map (fun q => q.2.2)) := by
  have hspec := (runClearGo_spec m idxSets 0 none).2 i hi
  have hposted := hspec.1
  rw [Nat.zero_add] at hposted
  refine ⟨?_, ?_, ?_, ?_, ?_⟩
  · rw [runClearSteps, hposted, clearPosts_wids]
    exact firstHandlerPerWid_nodup m
  · intro p hp
    rw [runClearSteps, hposted, clearPosts_wids]
    exact firstHandlerPerWid_covers m p hp
  · intro q hq
    rw [runClearSteps, hposted, clearPosts] at hq
    rw [List.mem_map] at hq
    obtain ⟨x, hx, rfl⟩ := hq
    refine ⟨?_, rfl⟩
    have hxm : x.2 ∈ firstHandlerPerWid m := by
      have := List.enum_map_snd (firstHandlerPerWid m)
      have hmem : x.2 ∈ (firstHandlerPerWid m).enum.map Prod.snd :=
        List.mem_map_of_mem _ hx
      rwa [this] at hmem
    exact firstHandlerPerWid_sub m x.2 hxm
  · intro h0
    rw [runClearSteps, hspec.2, if_pos h0]
    rfl
  · intro j hj
    have hjlt : j < idxSets.length := by omega
    have hspecj := (runClearGo_spec m idxSets 0 none).2 j hjlt
    rw [runClearSteps, hspec.2, if_neg (by omega), hspecj.1, clearPosts_ids]
    congr 1
    omega

/-- Witness for C6 at a concrete input: two workers, two shards on worker
0, a run of two steps. -/
theorem C6_witness :
    ((((runClearSteps [(⟨⟨"actor", 0⟩, 0⟩, 0), (⟨⟨"critic", 0⟩, 0⟩, 0), (⟨⟨"actor", 0⟩, 1⟩, 1)]
        [[5], [7]]).getD 1 default).posted.map (fun q => q.1.2)).Nodup) ∧
    (∀ j, (1 : Nat) = j + 1 →
      ((runClearSteps [(⟨⟨"actor", 0⟩, 0⟩, 0), (⟨⟨"critic", 0⟩, 0⟩, 0), (⟨⟨"actor", 0⟩, 1⟩, 1)]
          [[5], [7]]).getD 1 default).awaited
        = ((runClearSteps [(⟨⟨"actor", 0⟩, 0⟩, 0), (⟨⟨"critic", 0⟩, 0⟩, 0), (⟨⟨"actor", 0⟩, 1⟩, 1)]
            [[5], [7]]).getD j default).posted.map (fun q => q.2.2)) :=
  ⟨(C6_clear_at_most_one_outstanding _ [[5], [7]] 1 (by decide)).1,
   (C6_clear_at_most_one_outstanding _ [[5], [7]] 1 (by decide)).2.2.2.2⟩

end MasterWorker

namespace MasterWorker

/-- The data-owner registry
`(buffer_index, attribute_key) -> (producer_model_name, producer_dp_rank)`
(`self.__data_owner`, an initially empty dict shared by the data loader
and all request coroutines). -/
def DataOwner := Nat × String → Option (ModelName × Nat)

/-- The empty registry (`self.__data_owner = {}`). -/
def emptyOwner : DataOwner := fun _ => none

/-- Write a sequence of cells `((buffer_index, key), dp_rank)` for a single
producing model name, later writes overwriting earlier ones (dict
assignment in loop order). -/
def writeMany (reg : DataOwner) (name : ModelName) (cells : List ((Nat × String) × Nat)) :
    DataOwner :=
  cells.foldl (fun r cell => fun q => if q = cell.1 then some (name, cell.2) else r q) reg

/-- One owner-registering batch of `load_data_func` (lines 665-669): for
each `(buf_idx, dp_i)` of the per-data-worker ranges, for each key of the
fetched sample, `data_owner[(buf_idx, k)] = (src_rpc_model_name, dp_i)`. -/
structure LoadWriteEv where
  srcModelName : ModelName
  dpAssign : List (Nat × Nat)
  keys : List String
deriving DecidableEq

/-- One owner-registering pass of `model_rpc_request_func` (lines 519-524):
for each `(sample.indices[i], dp_idx)` of the partition, for each output
key (after `output_key_remap`),
`data_owner[(index, k)] = (rpc.model_name, dp_idx)`. -/
structure RpcWriteEv where
  modelName : ModelName
  outKeys : List String
  idxAssign : List (Nat × Nat)
deriving DecidableEq

/-- The two kinds of writers of the data-owner registry. -/
inductive OwnerEvent where
  | load (e : LoadWriteEv)
  | rpcReq (e : RpcWriteEv)
deriving DecidableEq

/-- The keys an event writes. -/
def OwnerEvent.keys : OwnerEvent → List String
  | .load e => e.keys
  | .rpcReq e => e.outKeys

/-- The producing model name an event records. -/
def OwnerEvent.name : OwnerEvent → ModelName
  | .load e => e.srcModelName
  | .rpcReq e => e.modelName

/-- The written cells of an event: the nested `for` loops flattened in
iteration order. -/
def OwnerEvent.cells : OwnerEvent → List ((Nat × String) × Nat)
  | .load e => e.dpAssign.flatMap (fun p => e.keys.map (fun k => ((p.1, k), p.2)))
  | .rpcReq e => e.idxAssign.flatMap (fun p => e.outKeys.map (fun k => ((p.1, k), p.2)))

/-- Apply one owner event to the registry. -/
def applyEvent (reg : DataOwner) (ev : OwnerEvent) : DataOwner :=
  writeMany reg ev.name ev.cells

/-- Apply a whole history of owner events, oldest first. -/
def applyEvents (reg : DataOwner) (evs : List OwnerEvent) : DataOwner :=
  evs.foldl applyEvent reg

/-- Lines 526-539 of `model_rpc_request_func` for one input key `k`:
read the owner of every buffer index of the batch (a missing registry
entry raises `KeyError`, modelled `none`), assert
`len(set(names)) == 1` (failure modelled `none`), and group batch
positions by producer dp rank (`defaultdict` in first-occurrence order,
each position list ascending — positions are appended in increasing
order, matching the source's `sorted(v)`). -/
def assembleProducerMapping (reg : DataOwner) (indices : List Nat) (k : String) :
    Option (ModelName × List (Nat × List Nat)) :=
  let owners := indices.map (fun idx => reg (idx, k))
  if owners.any (·.isNone) then none
  else
    let names := owners.filterMap (fun o => o.map (·.1))
    let dps := owners.filterMap (fun o => o.map (·.2))
    match names.head? with
    | none => none
    | some nm =>
      if names.dedup.length = 1 then
        some (nm, dps.dedup.map
          (fun d => (d, (List.range dps.length).filter (fun i => dps.getD i 0 = d))))
      else none

theorem writeMany_owner (keyOwner : String → ModelName) (name : ModelName) :
    ∀ (cells : List ((Nat × String) × Nat)) (reg : DataOwner),
      (∀ q nm dp, reg q = some (nm, dp) → nm = keyOwner q.2) →
      (∀ cell ∈ cells, name = keyOwner cell.1.2) →
      ∀ q nm dp, writeMany reg name cells q = some (nm, dp) → nm = keyOwner q.2 := by
  intro cells
  induction cells with
  | nil => intro reg hreg _ q nm dp h; exact hreg q nm dp h
  | cons cell rest ih =>
    intro reg hreg hcells q nm dp h
    rw [writeMany, List.foldl_cons] at h
    refine ih _ ?_ (fun c hc => hcells c (List.mem_cons_of_mem _ hc)) q nm dp h
    intro q' nm' dp' h'
    by_cases hq : q' = cell.1
    · rw [if_pos hq] at h'
      have : nm' = name := by
        have := Option.some.inj h'
        exact (congrArg Prod.fst this).symm
      rw [this, hq]
      exact hcells cell (List.mem_cons_self _ _)
    · rw [if_neg hq] at h'
      exact hreg q' nm' dp' h'

theorem applyEvents_owner (keyOwner : String → ModelName) :
    ∀ (evs : List OwnerEvent) (reg : DataOwner),
      (∀ q nm dp, reg q = some (nm, dp) → nm = keyOwner q.2) →
      (∀ ev ∈ evs, ∀ k ∈ ev.keys, ev.name = keyOwner k) →
      ∀ q nm dp, applyEvents reg evs q = some (nm, dp) → nm = keyOwner q.2 := by
  intro evs
  induction evs with
  | nil => intro reg hreg _ q nm dp h; exact hreg q nm dp h
  | cons ev rest ih =>
    intro reg hreg hevs q nm dp h
    rw [applyEvents, List.foldl_cons] at h
    refine ih _ ?_ (fun e he => hevs e (List.mem_cons_of_mem _ he)) q nm dp h
    apply writeMany_owner keyOwner ev.name ev.cells reg hreg
    intro cell hcell
    have hk : cell.1.2 ∈ ev.keys := by
      cases ev with
      | load e =>
        simp only [OwnerEvent.cells, List.mem_flatMap, List.mem_map] at hcell
        obtain ⟨p, _, k, hk, rfl⟩ := hcell
        exact hk
      | rpcReq e =>
        simp only [OwnerEvent.cells, List.mem_flatMap, List.mem_map] at hcell
        obtain ⟨p, _, k, hk, rfl⟩ := hcell
        exact hk
    exact hevs ev (List.mem_cons_self _ _) cell.1.2 hk

theorem dedup_const (a : ModelName) :
    ∀ (l : List ModelName), l ≠ [] → (∀ x ∈ l, x = a) → l.dedup = [a] := by
  intro l
  induction l with
  | nil => intro h; cases h rfl
  | cons x rest ih =>
    intro _ hall
    have hx : x = a := hall x (List.mem_cons_self _ _)
    subst hx
    by_cases hrest : rest = []
    · subst hrest; simp
    · have hmem : x ∈ rest := by
        obtain ⟨y, hy⟩ := List.exists_mem_of_ne_nil rest hrest
        have hyx := hall y (List.mem_cons_of_mem _ hy)
        rwa [hyx] at hy
      rw [List.dedup_cons_of_mem hmem]
      exact ih hrest (fun z hz => hall z (List.mem_cons_of_mem _ hz))

end MasterWorker

namespace MasterWorker

/-- Claim C2.  Consider any history of data-owner writes: batches of the data
loader (each recording `src_rpc_model_name` for every key of the fetched
sample) and request-time writes of producing RPCs (each recording its own
`model_name` for its remapped output keys), under the DFG well-formedness
invariant that each key has a single producer (`keyOwner`; spec section 9
declares behaviour undefined otherwise).  Then for every nonempty batch
whose every `(buffer_index, k)` pair was previously recorded, the producer
set assembled by the request coroutine is a singleton — the
`assert len(set(names)) == 1` never fails — and the unique producer is
`keyOwner k`. -/
theorem C2_producer_mapping_unique (evs : List OwnerEvent) (keyOwner : String → ModelName)
    (hwf : ∀ ev ∈ evs, ∀ k ∈ ev.keys, ev.name = keyOwner k)
    (indices : List Nat) (k : String) (hne : indices ≠ [])
    (hrec : ∀ idx ∈ indices, applyEvents emptyOwner evs (idx, k) ≠ none) :
    (assembleProducerMapping (applyEvents emptyOwner evs) indices k).map (·.1)
      = some (keyOwner k) := by
  have howner : ∀ q nm dp, applyEvents emptyOwner evs q = some (nm, dp) → nm = keyOwner q.2 :=
    applyEvents_owner keyOwner evs emptyOwner (by intro q nm dp h; cases h) hwf
  have hany : (indices.map (fun idx => applyEvents emptyOwner evs (idx, k))).any
      (·.isNone) = false := by
    rw [List.any_eq_false]
    intro o ho
    rw [List.mem_map] at ho
    obtain ⟨idx, hidx, rfl⟩ := ho
    have := hrec idx hidx
    cases hcase : applyEvents emptyOwner evs (idx, k) with
    | none => exact absurd hcase this
    | some v => simp
  have hnames : ∀ nm ∈ (indices.map (fun idx => applyEvents emptyOwner evs (idx, k))).filterMap
      (fun o => o.map (·.1)), nm = keyOwner k := by
    intro nm hnm
    rw [List.mem_filterMap] at hnm
    obtain ⟨o, ho, hmap⟩ := hnm
    rw [List.mem_map] at ho
    obtain ⟨idx, hidx, rfl⟩ := ho
    cases hcase : applyEvents emptyOwner evs (idx, k) with
    | none => rw [hcase] at hmap; cases hmap
    | some v =>
      rw [hcase] at hmap
      simp only [Option.map_some', Option.some.injEq] at hmap
      rw [← hmap]
      exact howner (idx, k) v.1 v.2 (by rw [hcase])
  have hnonempty : (indices.map (fun idx => applyEvents emptyOwner evs (idx, k))).filterMap
      (fun o => o.map (·.1)) ≠ [] := by
    cases hind : indices with
    | nil => exact absurd hind hne
    | cons i0 rest =>
      have h0 := hrec i0 (by rw [hind]; exact List.mem_cons_self _ _)
      cases hcase : applyEvents emptyOwner evs (i0, k) with
      | none => exact absurd hcase h0
      | some v => simp [hcase]
  cases hh : ((indices.map (fun idx => applyEvents emptyOwner evs (idx, k))).filterMap
      (fun o => o.map (·.1))).head? with
  | none =>
    rw [List.head?_eq_none_iff] at hh
    exact absurd hh hnonempty
  | some nm =>
    have hnm : nm = keyOwner k := by
      apply hnames
      exact List.mem_of_mem_head? (by rw [hh]; rfl)
    have hdedup := dedup_const (keyOwner k) _ hnonempty hnames
    simp only [assembleProducerMapping]
    rw [hany, hh, hdedup]
    simp [hnm]

/-- Witness for C2 at a concrete history: one data-loader batch recording
key "prompt" for indices 0 and 1 (dp ranks 0 and 1). -/
theorem C2_witness :
    (assembleProducerMapping
        (applyEvents emptyOwner
          [OwnerEvent.load ⟨⟨"actor", 0⟩, [(0, 0), (1, 1)], ["prompt"]⟩])
        [0, 1] "prompt").map (·.1) = some ⟨"actor", 0⟩ :=
  C2_producer_mapping_unique _ (fun _ => ⟨"actor", 0⟩) (by decide) [0, 1] "prompt"
    (by decide) (by decide)

end MasterWorker

namespace MasterWorker

/-- The `data` of a worker reply as read by the reply coroutine: either a
dict carrying `keys` / `buffer_indices` / `seqlens` (with
`data.get("seqlens")` possibly `None`), or opaque non-dict data.  Replies
of shapes outside the worker interface contract would raise in the source
(`KeyError`); the theorem's hypotheses restrict to contract-shaped
replies. -/
inductive RData where
  | dictData (keys : List String) (bufferIndices : List Nat) (seqlens : Option (List Nat))
  | tensorData (tag : Nat)
deriving DecidableEq

/-- The value `res` computed by the reply coroutine: remapped key names
(dict branch) or the result of the data broker's gather (opaque here). -/
inductive ResVal where
  | keys (ks : List String)
  | gathered (ds : List RData)
deriving DecidableEq

/-- The RPC attributes read by `model_rpc_reply_func`. -/
structure ReplyRPC where
  name : String
  is_dst : Bool
  output_key_remap : List (String × String)
deriving DecidableEq

/-- `rpc.output_key_remap[k]` when present, else `k`. -/
def remapOut (r : ReplyRPC) (k : String) : String :=
  match r.output_key_remap.lookup k with
  | some k2 => k2
  | none => k

/-- The dp-head ranks
`[topo.get_rank(data=i, pipe=topo.get_dim("pipe") - 1, model=0)
for i in range(dp_size)]`. -/
def dpHeadIndices (t : Topo) : List Nat :=
  (List.range t.dataDim).map (fun i => t.getRank (t.pipeDim - 1) 0 i)

/-- `responses = [responses[i] for i in dp_head_indices]`: the retained
replies.  Primary request ids are posted in payload-insertion order, i.e.
parallelism-rank order, so `reqIds.getD r 0` is the request id of rank
`r` and `resp` maps request ids to replied data. -/
def retainedReplies (topo : Topo) (reqIds : List Nat) (resp : Nat → RData) : List RData :=
  (dpHeadIndices topo).map (fun r => resp (reqIds.getD r 0))

/-- `sum([response.data["buffer_indices"] for response in responses], [])`. -/
def repliesBufferIndices (ds : List RData) : List Nat :=
  ds.flatMap (fun d => match d with
    | .dictData _ bi _ => bi
    | .tensorData _ => [])

/-- `sum([response.data["seqlens"] for response in responses], [])`. -/
def repliesSeqlens (ds : List RData) : List Nat :=
  ds.flatMap (fun d => match d with
    | .dictData _ _ (some sl) => sl
    | _ => [])

/-- `responses[0].data["keys"]`. -/
def repliesHeadKeys (ds : List RData) : List String :=
  match ds.head? with
  | some (.dictData ks _ _) => ks
  | _ => []

/-- Lines 596-604: if the last retained reply is a dict whose
`data.get("seqlens")` is present, `res` is the output-remapped key list of
the first retained reply; otherwise `res` is the broker gather of the
retained data (opaque). -/
def replyRes (rpc : ReplyRPC) (retained : List RData) : ResVal :=
  match retained.getLast? with
  | some (RData.dictData _ _ (some _)) =>
    ResVal.keys ((repliesHeadKeys retained).map (remapOut rpc))
  | _ => ResVal.gathered retained

/-- Events of one mailbox drain of `model_rpc_reply_func`, in program
order. -/
inductive ReplyEvent where
  | awaitResp (id : Nat)
  | semRelease (rpc : String)
  | traversalInc (rpc : String)
  | trainCountPut
  | amendBuffer (indices : List Nat) (res : ResVal) (seqlens : List Nat)
deriving DecidableEq

/-- One mailbox drain of `model_rpc_reply_func` (lines 580-621): await
every side-request reply, then every primary reply; retain the dp-head
replies; compute `res`; release the concurrency semaphore; increment the
RPC's traversal counter; then either put one token on the
terminal-completion counter (`is_dst`) or amend the buffer at the returned
indices with `res` and the returned per-sequence lengths. -/
def modelRpcReplyEvents (rpc : ReplyRPC) (topo : Topo) (reqIds otherReqIds : List Nat)
    (resp : Nat → RData) : List ReplyEvent :=
  let retained := retainedReplies topo reqIds resp
  otherReqIds.map ReplyEvent.awaitResp ++ reqIds.map ReplyEvent.awaitResp ++
    [ReplyEvent.semRelease rpc.name, ReplyEvent.traversalInc rpc.name] ++
    (if rpc.is_dst then [ReplyEvent.trainCountPut]
     else [ReplyEvent.amendBuffer (repliesBufferIndices retained) (replyRes rpc retained)
        (repliesSeqlens retained)])

theorem coords_getRank (t : Topo) (p m d : Nat) (hm : m < t.modelDim) (hd : d < t.dataDim) :
    t.coords (t.getRank p m d) = (p, m, d) := by
  have hdd : 0 < t.dataDim := Nat.pos_of_ne_zero (by omega)
  have hmm : 0 < t.modelDim := Nat.pos_of_ne_zero (by omega)
  simp only [Topo.coords, Topo.getRank, Prod.mk.injEq]
  refine ⟨?_, ?_, ?_⟩
  · have harr : (p * t.modelDim + m) * t.dataDim + d
        = t.modelDim * t.dataDim * p + (m * t.dataDim + d) := by ring
    rw [harr, Nat.mul_add_div (Nat.mul_pos hmm hdd)]
    have hsmall : m * t.dataDim + d < t.modelDim * t.dataDim := by
      have h1 : (m + 1) * t.dataDim = m * t.dataDim + t.dataDim := by ring
      have h2 : (m + 1) * t.dataDim ≤ t.modelDim * t.dataDim :=
        Nat.mul_le_mul_right _ (by omega)
      omega
    rw [Nat.div_eq_of_lt hsmall]
    omega
  · have harr : (p * t.modelDim + m) * t.dataDim + d
        = t.dataDim * (p * t.modelDim + m) + d := by ring
    rw [harr, Nat.mul_add_div hdd, Nat.div_eq_of_lt hd, Nat.add_zero]
    have harr2 : p * t.modelDim + m = t.modelDim * p + m := by ring
    rw [harr2, Nat.mul_add_mod, Nat.mod_eq_of_lt hm]
  · have harr : (p * t.modelDim + m) * t.dataDim + d
        = t.dataDim * (p * t.modelDim + m) + d := by ring
    rw [harr, Nat.mul_add_mod, Nat.mod_eq_of_lt hd]

/-- Claim C5.  For every mailbox entry: the reply coroutine first awaits all
side-request replies and then all primary replies; it retains exactly the
dp-head replies — the `dp_size` pairwise-distinct ranks whose (pipe,
model, data) coordinates are (last pipe stage, 0, i), one per data slice
`i`; it releases the concurrency semaphore and increments the RPC's
traversal counter; and the final action is one terminal-counter token when
`is_dst`, otherwise a buffer amendment at the returned buffer indices
carrying the output-remapped produced keys and the per-sequence lengths
returned by the workers. -/
theorem C5_reply_coroutine (rpc : ReplyRPC) (topo : Topo) (reqIds otherReqIds : List Nat)
    (resp : Nat → RData) (hm : 1 ≤ topo.modelDim) (hd : 1 ≤ topo.dataDim)
    (hdict : ∀ x ∈ retainedReplies topo reqIds resp,
      ∃ ks bi sl, x = RData.dictData ks bi (some sl)) :
    ((dpHeadIndices topo).length = topo.dataDim ∧ (dpHeadIndices topo).Nodup ∧
      (∀ i, i < topo.dataDim →
        topo.coords ((dpHeadIndices topo).getD i 0) = (topo.pipeDim - 1, 0, i))) ∧
    modelRpcReplyEvents rpc topo reqIds otherReqIds resp
      = otherReqIds.map ReplyEvent.awaitResp ++ reqIds.map ReplyEvent.awaitResp ++
        [ReplyEvent.semRelease rpc.name, ReplyEvent.traversalInc rpc.name] ++
        (if rpc.is_dst then [ReplyEvent.trainCountPut]
         else [ReplyEvent.amendBuffer
            (repliesBufferIndices (retainedReplies topo reqIds resp))
            (ResVal.keys
              ((repliesHeadKeys (retainedReplies topo reqIds resp)).map (remapOut rpc)))
            (repliesSeqlens (retainedReplies topo reqIds resp))]) := by
  constructor
  · refine ⟨by simp [dpHeadIndices], ?_, ?_⟩
    · apply List.Nodup.map
      · intro a b hab
        simp only [Topo.getRank] at hab
        omega
      · exact List.nodup_range _
    · intro i hi
      have hgd : (dpHeadIndices topo).getD i 0 = topo.getRank (topo.pipeDim - 1) 0 i := by
        rw [dpHeadIndices, List.getD_eq_getElem?_getD, List.getElem?_map, List.getElem?_range hi]
        rfl
      rw [hgd]
      exact coords_getRank topo _ 0 i hm hi
  · rw [modelRpcReplyEvents]
    have hres : replyRes rpc (retainedReplies topo reqIds resp)
        = ResVal.keys
          ((repliesHeadKeys (retainedReplies topo reqIds resp)).map (remapOut rpc)) := by
      have hlen : (retainedReplies topo reqIds resp).length = topo.dataDim := by
        simp [retainedReplies, dpHeadIndices]
      have hne : retainedReplies topo reqIds resp ≠ [] := by
        intro hc
        rw [hc] at hlen
        simp at hlen
        omega
      cases hlast : (retainedReplies topo reqIds resp).getLast? with
      | none =>
        rw [List.getLast?_eq_none_iff] at hlast
        exact absurd hlast hne
      | some x =>
        have hx : x ∈ retainedReplies topo reqIds resp :=
          List.mem_of_mem_getLast? (by rw [hlast]; rfl)
        obtain ⟨ks, bi, sl, rfl⟩ := hdict x hx
        rw [replyRes, hlast]
    rw [hres]

/-- Witness for C5 at a concrete topology (pipe 2, model 1, data 2) and a
concrete dict-shaped reply map. -/
theorem C5_witness :
    ((dpHeadIndices ⟨2, 1, 2⟩).length = 2 ∧ (dpHeadIndices ⟨2, 1, 2⟩).Nodup ∧
      (∀ i, i < 2 →
        Topo.coords ⟨2, 1, 2⟩ ((dpHeadIndices ⟨2, 1, 2⟩).getD i 0) = (1, 0, i))) ∧
    modelRpcReplyEvents ⟨"train", true, []⟩ ⟨2, 1, 2⟩ [10, 11, 12, 13] [20]
        (fun _ => RData.dictData ["seq"] [0] (some [4]))
      = [20].map ReplyEvent.awaitResp ++ [10, 11, 12, 13].map ReplyEvent.awaitResp ++
        [ReplyEvent.semRelease "train", ReplyEvent.traversalInc "train"] ++
        (if true then [ReplyEvent.trainCountPut]
         else [ReplyEvent.amendBuffer
            (repliesBufferIndices (retainedReplies ⟨2, 1, 2⟩ [10, 11, 12, 13]
              (fun _ => RData.dictData ["seq"] [0] (some [4]))))
            (ResVal.keys ((repliesHeadKeys (retainedReplies ⟨2, 1, 2⟩ [10, 11, 12, 13]
              (fun _ => RData.dictData ["seq"] [0] (some [4])))).map
                (remapOut ⟨"train", true, []⟩)))
            (repliesSeqlens (retainedReplies ⟨2, 1, 2⟩ [10, 11, 12, 13]
              (fun _ => RData.dictData ["seq"] [0] (some [4]))))]) :=
  C5_reply_coroutine ⟨"train", true, []⟩ ⟨2, 1, 2⟩ [10, 11, 12, 13] [20]
    (fun _ => RData.dictData ["seq"] [0] (some [4])) (by decide) (by decide)
    (by intro x hx
        rw [retainedReplies] at hx
        rcases List.mem_map.mp hx with ⟨r, hr, rfl⟩
        exact ⟨["seq"], [0], [4], rfl⟩)

end MasterWorker

namespace MasterWorker

/-- The `ps_data` dict attached to `param_realloc` hooks (lines 312-318):
endpoints, topologies and the target model config (opaque). -/
structure PsData where
  from_model_name : ModelName
  to_model_name : ModelName
  from_topo : Topo
  to_topo : Topo
  to_model_config : Option Nat
deriving DecidableEq

/-- Hook data attached to a payload's `pre_hook_data` / `post_hook_data`
(the `data_transfer` descriptor's contents are opaque at this layer). -/
inductive HookData where
  | paramRealloc (d : PsData)
  | dataTransfer
  | offloadData (model_name : ModelName)
deriving DecidableEq

/-- The payload fields manipulated by the request path of
`scatter_tensor_to_mws` / `_attach_payloads_with_hooks`. -/
structure Payload where
  handler : ModelShardID
  handle_name : String
  pre_hooks : List String
  post_hooks : List String
  pre_hook_data : List HookData
  post_hook_data : List HookData
deriving DecidableEq

/-- `getattr(payload, f"{hook_type}_hooks").append(name)` with the
matching hook-data append; `isPre` selects the pre/post side. -/
def Payload.addHook (p : Payload) (isPre : Bool) (name : String) (d : HookData) : Payload :=
  if isPre then
    { p with pre_hooks := p.pre_hooks ++ [name], pre_hook_data := p.pre_hook_data ++ [d] }
  else
    { p with post_hooks := p.post_hooks ++ [name], post_hook_data := p.post_hook_data ++ [d] }

/-- The selected side's hook list. -/
def Payload.hooksOf (p : Payload) (isPre : Bool) : List String :=
  if isPre then p.pre_hooks else p.post_hooks

/-- `dfg.SyncParamHook(source, target)` / `dfg.OffloadHook`. -/
inductive Hook where
  | syncParam (source : Option ModelName) (target : Option ModelName)
  | offload
deriving DecidableEq

/-- The `dfg.ModelRPC` attributes consumed by the hook resolver. -/
structure HookRPC where
  model_name : ModelName
  interface_type : String
  pre_hooks : List Hook
  post_hooks : List Hook
deriving DecidableEq

/-- The `payloads` dict (insertion-ordered, keyed by handler) paired with
the `mwids` list of addressed worker ids. -/
def HookState := List (ModelShardID × Payload) × List Nat

/-- In-place mutation `payloads[h] = f(payloads[h])` for an existing key. -/
def updatePayload (ps : List (ModelShardID × Payload)) (h : ModelShardID)
    (f : Payload → Payload) : List (ModelShardID × Payload) :=
  ps.map (fun q => if q.1 = h then (q.1, f q.2) else q)

/-- `next(hh for hh in payloads if msid2mwid[hh] == msid2mwid[h])` followed
by the hook append: update the first payload whose handler lives on worker
`w`. -/
def updateFirstByMwid (msid2mwid : ModelShardID → Nat) (ps : List (ModelShardID × Payload))
    (w : Nat) (f : Payload → Payload) : List (ModelShardID × Payload) :=
  match ps with
  | [] => []
  | q :: rest =>
    if msid2mwid q.1 = w then (q.1, f q.2) :: rest
    else q :: updateFirstByMwid msid2mwid rest w f

/-- The fresh `empty` payload created for a hook side-participant, with
only the `param_realloc` hook attached
(`setattr(payloads[h], f"{hook_type}_hooks", ["param_realloc"])`). -/
def emptyHookPayload (h : ModelShardID) (isPre : Bool) (d : HookData) : Payload :=
  Payload.addHook ⟨h, "empty", [], [], [], []⟩ isPre "param_realloc" d

/-- One `other_handlers` iteration of `_attach_payloads_with_hooks`
(lines 326-338): a not-yet-addressed worker gets a fresh `empty` payload
carrying the hook; a worker already addressed but not a primary handler
gets the hook appended to its existing payload; a primary-handler worker
is skipped (its payload already received the hook). -/
def attachOther (msid2mwid : ModelShardID → Nat) (mainMwids : List Nat) (isPre : Bool)
    (d : HookData) (st : HookState) (h : ModelShardID) : HookState :=
  if msid2mwid h ∈ st.2 then
    if msid2mwid h ∈ mainMwids then st
    else (updateFirstByMwid msid2mwid st.1 (msid2mwid h)
      (fun p => p.addHook isPre "param_realloc" d), st.2)
  else (st.1 ++ [(h, emptyHookPayload h isPre d)], st.2 ++ [msid2mwid h])

/-- Endpoint resolution of a `SyncParamHook` (lines 296-318): exactly one
of source/target is set (the source asserts this; `none` models the
`AssertionError`), the unset side defaulting to the RPC's own model.
Returns the `ps_data` and the other endpoint's model name. -/
def resolveSyncParam (rpc : HookRPC) (model_topos : ModelName → Topo)
    (model_configs : ModelName → Option Nat) :
    Option ModelName → Option ModelName → Option (PsData × ModelName)
  | none, some tgt =>
    some (⟨rpc.model_name, tgt, model_topos rpc.model_name, model_topos tgt,
      model_configs tgt⟩, tgt)
  | some src, none =>
    some (⟨src, rpc.model_name, model_topos src, model_topos rpc.model_name,
      model_configs rpc.model_name⟩, src)
  | _, _ => none

/-- Processing of one hook by `_attach_payloads_with_hooks` for one
`hook_type` side: a `SyncParamHook` appends `param_realloc` to every
primary handler's payload and then walks the other endpoint's full
handler set; an `OffloadHook` appends `offload` to every primary
handler's payload. -/
def attachOneHook (rpc : HookRPC) (model_topos : ModelName → Topo)
    (model_configs : ModelName → Option Nat) (msid2mwid : ModelShardID → Nat)
    (mainHandlers : List ModelShardID) (isPre : Bool) (st : HookState) (hook : Hook) :
    Option HookState :=
  match hook with
  | .offload =>
    some (mainHandlers.foldl (fun ps h =>
        updatePayload ps h (fun p => p.addHook isPre "offload" (.offloadData h.model_name)))
      st.1, st.2)
  | .syncParam src tgt =>
    match resolveSyncParam rpc model_topos model_configs src tgt with
    | none => none
    | some (psd, otherName) =>
      let d := HookData.paramRealloc psd
      let ps1 := mainHandlers.foldl (fun ps h =>
        updatePayload ps h (fun p => p.addHook isPre "param_realloc" d)) st.1
      let otherHandlers := (List.range (model_topos otherName).worldSize).map
        (fun j => ModelShardID.mk otherName j)
      some (otherHandlers.foldl
        (attachOther msid2mwid (mainHandlers.map msid2mwid) isPre d) (ps1, st.2))

/-- `_attach_payloads_with_hooks(rpc, payloads, mwids, ..., hook_type)`. -/
def attachPayloadsWithHooks (rpc : HookRPC) (model_topos : ModelName → Topo)
    (model_configs : ModelName → Option Nat) (msid2mwid : ModelShardID → Nat)
    (mainHandlers : List ModelShardID) (isPre : Bool) (st : HookState) : Option HookState :=
  (if isPre then rpc.pre_hooks else rpc.post_hooks).foldlM
    (attachOneHook rpc model_topos model_configs msid2mwid mainHandlers isPre) st

/-- The primary payloads of `scatter_tensor_to_mws` (lines 378-386): one
per primary handler, the RPC's interface type as handle name, with the
`data_transfer` pre-hook. -/
def initPayloads (rpc : HookRPC) (handlers : List ModelShardID) :
    List (ModelShardID × Payload) :=
  handlers.map (fun h =>
    (h, ⟨h, rpc.interface_type, ["data_transfer"], [], [.dataTransfer], []⟩))

/-- The producer additions of `scatter_tensor_to_mws` (lines 390-399):
every producing model's handler on a not-yet-addressed worker gets an
`empty` payload with the `data_transfer` pre-hook. -/
def addProducerPayloads (msid2mwid : ModelShardID → Nat) (model_topos : ModelName → Topo)
    (producers : List ModelName) (st : HookState) : HookState :=
  producers.foldl (fun st p =>
    ((List.range (model_topos p).worldSize).map (fun j => ModelShardID.mk p j)).foldl
      (fun st h =>
        if msid2mwid h ∈ st.2 then st
        else (st.1 ++ [(h, ⟨h, "empty", ["data_transfer"], [], [.dataTransfer], []⟩)],
          st.2 ++ [msid2mwid h]))
      st)
    st

/-- The whole payload assembly of `scatter_tensor_to_mws`: primary
payloads (whose worker ids the source asserts pairwise distinct), producer
additions, then pre- and post-hook attachment. -/
def scatterPayloads (rpc : HookRPC) (model_topos : ModelName → Topo)
    (model_configs : ModelName → Option Nat) (msid2mwid : ModelShardID → Nat)
    (handlers : List ModelShardID) (producers : List ModelName) : Option HookState :=
  let st1 := addProducerPayloads msid2mwid model_topos producers
    (initPayloads rpc handlers, handlers.map msid2mwid)
  match attachPayloadsWithHooks rpc model_topos model_configs msid2mwid handlers true st1 with
  | none => none
  | some st2 =>
    attachPayloadsWithHooks rpc model_topos model_configs msid2mwid handlers false st2

/-- Well-formedness maintained by the source: `mwids` is exactly the
worker-id list of the payload keys (in insertion order) and is
duplicate-free (`assert len(mwids) == len(set(mwids))`): one payload per
worker id. -/
def HookWF (msid2mwid : ModelShardID → Nat) (st : HookState) : Prop :=
  st.2 = st.1.map (fun q => msid2mwid q.1) ∧ st.2.Nodup

end MasterWorker


namespace MasterWorker

theorem addHook_handle_name (p : Payload) (isPre : Bool) (name : String) (d : HookData) :
    (p.addHook isPre name d).handle_name = p.handle_name := by
  rw [Payload.addHook]
  split <;> rfl

theorem addHook_hooksOf (p : Payload) (isPre : Bool) (name : String) (d : HookData) :
    (p.addHook isPre name d).hooksOf isPre = p.hooksOf isPre ++ [name] := by
  cases isPre <;> simp [Payload.addHook, Payload.hooksOf]

theorem updatePayload_fst (ps : List (ModelShardID × Payload)) (h : ModelShardID)
    (f : Payload → Payload) : (updatePayload ps h f).map (·.1) = ps.map (·.1) := by
  induction ps with
  | nil => rfl
  | cons q rest ih =>
    simp only [updatePayload, List.map_cons] at ih ⊢
    rw [ih]
    congr 1
    by_cases hq : q.1 = h <;> simp [hq]

theorem foldl_updatePayload_fst (F : ModelShardID → Payload → Payload) :
    ∀ (hs : List ModelShardID) (ps : List (ModelShardID × Payload)),
      (hs.foldl (fun ps h => updatePayload ps h (F h)) ps).map (·.1) = ps.map (·.1) := by
  intro hs
  induction hs with
  | nil => intro ps; rfl
  | cons h t ih => intro ps; rw [List.foldl_cons, ih, updatePayload_fst]

theorem updateFirstByMwid_fst (msid2mwid : ModelShardID → Nat) (w : Nat)
    (f : Payload → Payload) :
    ∀ ps, (updateFirstByMwid msid2mwid ps w f).map (·.1) = ps.map (·.1) := by
  intro ps
  induction ps with
  | nil => rfl
  | cons q rest ih =>
    rw [updateFirstByMwid]
    by_cases hq : msid2mwid q.1 = w
    · rw [if_pos hq]
      simp
    · rw [if_neg hq, List.map_cons, List.map_cons, ih]

theorem map_wid_of_map_fst (msid2mwid : ModelShardID → Nat)
    {ps ps' : List (ModelShardID × Payload)} (h : ps.map (·.1) = ps'.map (·.1)) :
    ps.map (fun q => msid2mwid q.1) = ps'.map (fun q => msid2mwid q.1) := by
  have h2 := congrArg (List.map msid2mwid) h
  rwa [List.map_map, List.map_map] at h2

theorem attachOther_wf (msid2mwid : ModelShardID → Nat) (mainMwids : List Nat) (isPre : Bool)
    (d : HookData) (st : HookState) (h : ModelShardID) (hwf : HookWF msid2mwid st) :
    HookWF msid2mwid (attachOther msid2mwid mainMwids isPre d st h) := by
  obtain ⟨heq, hnd⟩ := hwf
  rw [attachOther]
  by_cases h1 : msid2mwid h ∈ st.2
  · rw [if_pos h1]
    by_cases h2 : msid2mwid h ∈ mainMwids
    · rw [if_pos h2]; exact ⟨heq, hnd⟩
    · rw [if_neg h2]
      refine ⟨?_, hnd⟩
      show st.2 = (updateFirstByMwid msid2mwid st.1 (msid2mwid h)
        (fun p => p.addHook isPre "param_realloc" d)).map (fun q => msid2mwid q.1)
      rw [heq]
      exact (map_wid_of_map_fst msid2mwid
        (updateFirstByMwid_fst msid2mwid (msid2mwid h) _ st.1)).symm
  · rw [if_neg h1]
    constructor
    · show st.2 ++ [msid2mwid h]
        = (st.1 ++ [(h, emptyHookPayload h isPre d)]).map (fun q => msid2mwid q.1)
      rw [List.map_append, ← heq]
      rfl
    · rw [List.nodup_append]
      refine ⟨hnd, List.nodup_singleton _, ?_⟩
      intro a ha hb
      rw [List.mem_singleton] at hb
      exact h1 (hb ▸ ha)

theorem attachOtherFold_wf (msid2mwid : ModelShardID → Nat) (mainMwids : List Nat)
    (isPre : Bool) (d : HookData) :
    ∀ (others : List ModelShardID) (st : HookState), HookWF msid2mwid st →
      HookWF msid2mwid (others.foldl (attachOther msid2mwid mainMwids isPre d) st) := by
  intro others
  induction others with
  | nil => intro st hw; exact hw
  | cons h t ih =>
    intro st hwf
    rw [List.foldl_cons]
    exact ih _ (attachOther_wf msid2mwid mainMwids isPre d st h hwf)

theorem mainFold_wf (msid2mwid : ModelShardID → Nat) (F : ModelShardID → Payload → Payload)
    (hs : List ModelShardID) (st : HookState) (hwf : HookWF msid2mwid st) :
    HookWF msid2mwid (hs.foldl (fun ps h => updatePayload ps h (F h)) st.1, st.2) := by
  obtain ⟨heq, hnd⟩ := hwf
  refine ⟨?_, hnd⟩
  show st.2 = (hs.foldl (fun ps h => updatePayload ps h (F h)) st.1).map (fun q => msid2mwid q.1)
  rw [heq]
  exact (map_wid_of_map_fst msid2mwid (foldl_updatePayload_fst F hs st.1)).symm

theorem attachOneHook_wf (rpc : HookRPC) (mt : ModelName → Topo)
    (mc : ModelName → Option Nat) (msid2mwid : ModelShardID → Nat)
    (mainHandlers : List ModelShardID) (isPre : Bool) (st st' : HookState) (hook : Hook)
    (hwf : HookWF msid2mwid st)
    (hres : attachOneHook rpc mt mc msid2mwid mainHandlers isPre st hook = some st') :
    HookWF msid2mwid st' := by
  cases hook with
  | offload =>
    rw [attachOneHook] at hres
    have := Option.some.inj hres
    rw [← this]
    exact mainFold_wf msid2mwid _ mainHandlers st hwf
  | syncParam src tgt =>
    rw [attachOneHook] at hres
    cases hr : resolveSyncParam rpc mt mc src tgt with
    | none => rw [hr] at hres; cases hres
    | some v =>
      rw [hr] at hres
      obtain ⟨psd, otherName⟩ := v
      have := Option.some.inj hres
      rw [← this]
      exact attachOtherFold_wf msid2mwid _ isPre _ _ _
        (mainFold_wf msid2mwid _ mainHandlers st hwf)

theorem attachHooks_wf (rpc : HookRPC) (mt : ModelName → Topo)
    (mc : ModelName → Option Nat) (msid2mwid : ModelShardID → Nat)
    (mainHandlers : List ModelShardID) (isPre : Bool) :
    ∀ (hooks : List Hook) (st st' : HookState), HookWF msid2mwid st →
      hooks.foldlM (attachOneHook rpc mt mc msid2mwid mainHandlers isPre) st = some st' →
      HookWF msid2mwid st' := by
  intro hooks
  induction hooks with
  | nil =>
    intro st st' hwf h
    rw [List.foldlM_nil] at h
    exact Option.some.inj h ▸ hwf
  | cons hk t ih =>
    intro st st' hwf h
    rw [List.foldlM_cons] at h
    cases hres : attachOneHook rpc mt mc msid2mwid mainHandlers isPre st hk with
    | none => rw [hres] at h; cases h
    | some st1 =>
      rw [hres] at h
      exact ih st1 st' (attachOneHook_wf rpc mt mc msid2mwid mainHandlers isPre st st1 hk
        hwf hres) h

theorem addProducerPayloads_wf (msid2mwid : ModelShardID → Nat) (mt : ModelName → Topo)
    (producers : List ModelName) (st : HookState) (hwf : HookWF msid2mwid st) :
    HookWF msid2mwid (addProducerPayloads msid2mwid mt producers st) := by
  rw [addProducerPayloads]
  induction producers generalizing st with
  | nil => exact hwf
  | cons p t ih =>
    rw [List.foldl_cons]
    apply ih
    generalize (List.range (mt p).worldSize).map (fun j => ModelShardID.mk p j) = hsl
    induction hsl generalizing st with
    | nil => exact hwf
    | cons h hs ih2 =>
      rw [List.foldl_cons]
      apply ih2
      by_cases h1 : msid2mwid h ∈ st.2
      · rw [if_pos h1]; exact hwf
      · rw [if_neg h1]
        obtain ⟨heq, hnd⟩ := hwf
        constructor
        · show st.2 ++ [msid2mwid h] = _
          rw [List.map_append, ← heq]
          rfl
        · rw [List.nodup_append]
          refine ⟨hnd, List.nodup_singleton _, ?_⟩
          intro a ha hb
          rw [List.mem_singleton] at hb
          exact h1 (hb ▸ ha)

theorem scatterPayloads_wf (rpc : HookRPC) (mt : ModelName → Topo)
    (mc : ModelName → Option Nat) (msid2mwid : ModelShardID → Nat)
    (handlers : List ModelShardID) (producers : List ModelName) (st' : HookState)
    (hnd : (handlers.map msid2mwid).Nodup)
    (h : scatterPayloads rpc mt mc msid2mwid handlers producers = some st') :
    HookWF msid2mwid st' := by
  have hwf0 : HookWF msid2mwid (initPayloads rpc handlers, handlers.map msid2mwid) := by
    constructor
    · show handlers.map msid2mwid = _
      rw [initPayloads, List.map_map]
      rfl
    · exact hnd
  rw [scatterPayloads] at h
  cases hpre : attachPayloadsWithHooks rpc mt mc msid2mwid handlers true
      (addProducerPayloads msid2mwid mt producers
        (initPayloads rpc handlers, handlers.map msid2mwid)) with
  | none => rw [hpre] at h; cases h
  | some st2 =>
    rw [hpre] at h
    have hwf1 := addProducerPayloads_wf msid2mwid mt producers _ hwf0
    have hwf2 := attachHooks_wf rpc mt mc msid2mwid handlers true rpc.pre_hooks _ st2 hwf1 hpre
    exact attachHooks_wf rpc mt mc msid2mwid handlers false rpc.post_hooks st2 st' hwf2 h

end MasterWorker

namespace MasterWorker

theorem foldl_updatePayload_eq (f : Payload → Payload) :
    ∀ (hs : List ModelShardID) (ps : List (ModelShardID × Payload)), hs.Nodup →
      hs.foldl (fun ps h => updatePayload ps h f) ps
        = ps.map (fun q => if q.1 ∈ hs then (q.1, f q.2) else q) := by
  intro hs
  induction hs with
  | nil =>
    intro ps _
    simp
  | cons h t ih =>
    intro ps hnd
    have hnd' := List.nodup_cons.mp hnd
    rw [List.foldl_cons, ih _ hnd'.2, updatePayload, List.map_map]
    apply List.map_congr_left
    intro q _
    by_cases hq : q.1 = h
    · simp [hq, hnd'.1, Function.comp_def]
    · by_cases hqt : q.1 ∈ t <;> simp [hq, hqt, Function.comp_def]

theorem mainFold_mem (f : Payload → Payload) (hs : List ModelShardID)
    (ps : List (ModelShardID × Payload)) (hnd : hs.Nodup) (h0 : ModelShardID) (p0 : Payload)
    (hmem : (h0, p0) ∈ ps) (hh : h0 ∈ hs) :
    (h0, f p0) ∈ hs.foldl (fun ps h => updatePayload ps h f) ps := by
  rw [foldl_updatePayload_eq f hs ps hnd]
  have := List.mem_map_of_mem (fun q => if q.1 ∈ hs then (q.1, f q.2) else q) hmem
  simpa [hh] using this

theorem mainFold_mem_rev (f : Payload → Payload) (hs : List ModelShardID)
    (ps : List (ModelShardID × Payload)) (hnd : hs.Nodup) (h0 : ModelShardID) (p0 : Payload)
    (hmem : (h0, p0) ∈ hs.foldl (fun ps h => updatePayload ps h f) ps) (hh : h0 ∉ hs) :
    (h0, p0) ∈ ps := by
  rw [foldl_updatePayload_eq f hs ps hnd] at hmem
  rw [List.mem_map] at hmem
  obtain ⟨q, hq, hqe⟩ := hmem
  by_cases hqh : q.1 ∈ hs
  · rw [if_pos hqh] at hqe
    have : q.1 = h0 := congrArg Prod.fst hqe
    exact absurd (this ▸ hqh) hh
  · rw [if_neg hqh] at hqe
    exact hqe ▸ hq

theorem updateFirstByMwid_mem (msid2mwid : ModelShardID → Nat) (w : Nat)
    (f : Payload → Payload) :
    ∀ (ps : List (ModelShardID × Payload)) (h0 : ModelShardID) (p0 : Payload),
      (h0, p0) ∈ ps →
      ∃ p1, (h0, p1) ∈ updateFirstByMwid msid2mwid ps w f ∧ (p1 = p0 ∨ p1 = f p0) := by
  intro ps
  induction ps with
  | nil => intro h0 p0 hm; cases hm
  | cons r rest ih =>
    intro h0 p0 hm
    rw [updateFirstByMwid]
    by_cases hr : msid2mwid r.1 = w
    · rw [if_pos hr]
      rcases List.mem_cons.mp hm with hq | hq
      · refine ⟨f p0, ?_, Or.inr rfl⟩
        have h1 : r.1 = h0 := (congrArg Prod.fst hq).symm
        have h2 : r.2 = p0 := (congrArg Prod.snd hq).symm
        rw [← h1, ← h2]
        exact List.mem_cons_self _ _
      · exact ⟨p0, List.mem_cons_of_mem _ hq, Or.inl rfl⟩
    · rw [if_neg hr]
      rcases List.mem_cons.mp hm with hq | hq
      · exact ⟨p0, hq ▸ List.mem_cons_self _ _, Or.inl rfl⟩
      · obtain ⟨p1, hp1, hcase⟩ := ih h0 p0 hq
        exact ⟨p1, List.mem_cons_of_mem _ hp1, hcase⟩

theorem updateFirstByMwid_mem_rev (msid2mwid : ModelShardID → Nat) (w : Nat)
    (f : Payload → Payload) :
    ∀ (ps : List (ModelShardID × Payload)) (q : ModelShardID × Payload),
      q ∈ updateFirstByMwid msid2mwid ps w f → msid2mwid q.1 ≠ w → q ∈ ps := by
  intro ps
  induction ps with
  | nil => intro q hq _; cases hq
  | cons r rest ih =>
    intro q hq hne
    rw [updateFirstByMwid] at hq
    by_cases hr : msid2mwid r.1 = w
    · rw [if_pos hr] at hq
      rcases List.mem_cons.mp hq with hc | hc
      · have : msid2mwid q.1 = w := by rw [hc]; exact hr
        exact absurd this hne
      · exact List.mem_cons_of_mem _ hc
    · rw [if_neg hr] at hq
      rcases List.mem_cons.mp hq with hc | hc
      · exact hc ▸ List.mem_cons_self _ _
      · exact List.mem_cons_of_mem _ (ih q hc hne)

theorem updateFirstByMwid_hits (msid2mwid : ModelShardID → Nat) (w : Nat)
    (f : Payload → Payload) :
    ∀ (ps : List (ModelShardID × Payload)),
      w ∈ ps.map (fun q => msid2mwid q.1) →
      ∃ q, q ∈ ps ∧ msid2mwid q.1 = w ∧
        (q.1, f q.2) ∈ updateFirstByMwid msid2mwid ps w f := by
  intro ps
  induction ps with
  | nil => intro hm; cases hm
  | cons r rest ih =>
    intro hm
    rw [updateFirstByMwid]
    by_cases hr : msid2mwid r.1 = w
    · rw [if_pos hr]
      exact ⟨r, List.mem_cons_self _ _, hr, List.mem_cons_self _ _⟩
    · rw [if_neg hr]
      have hm' : w ∈ rest.map (fun q => msid2mwid q.1) := by
        rcases List.mem_map.mp hm with ⟨q, hq, hqe⟩
        rcases List.mem_cons.mp hq with hc | hc
        · exact absurd (hc ▸ hqe) hr
        · rw [List.mem_map]; exact ⟨q, hc, hqe⟩
      obtain ⟨q, hq, hqw, hqm⟩ := ih hm'
      exact ⟨q, List.mem_cons_of_mem _ hq, hqw, List.mem_cons_of_mem _ hqm⟩

end MasterWorker

namespace MasterWorker

theorem attachOtherFold_frame (msid2mwid : ModelShardID → Nat) (mainMwids : List Nat)
    (isPre : Bool) (d : HookData) :
    ∀ (others : List ModelShardID) (st : HookState) (h0 : ModelShardID) (p0 : Payload),
      (h0, p0) ∈ st.1 →
      ∃ p', (h0, p') ∈ (others.foldl (attachOther msid2mwid mainMwids isPre d) st).1 ∧
        p'.handle_name = p0.handle_name ∧
        ∃ ext, p'.hooksOf isPre = p0.hooksOf isPre ++ ext := by
  intro others
  induction others with
  | nil =>
    intro st h0 p0 hm
    exact ⟨p0, hm, rfl, [], by simp⟩
  | cons h t ih =>
    intro st h0 p0 hm
    rw [List.foldl_cons, attachOther]
    by_cases h1 : msid2mwid h ∈ st.2
    · rw [if_pos h1]
      by_cases h2 : msid2mwid h ∈ mainMwids
      · rw [if_pos h2]
        exact ih st h0 p0 hm
      · rw [if_neg h2]
        obtain ⟨p1, hp1, hcase⟩ :=
          updateFirstByMwid_mem msid2mwid (msid2mwid h)
            (fun p => p.addHook isPre "param_realloc" d) st.1 h0 p0 hm
        obtain ⟨p', hmem', hname, ext, hext⟩ :=
          ih (updateFirstByMwid msid2mwid st.1 (msid2mwid h)
            (fun p => p.addHook isPre "param_realloc" d), st.2) h0 p1 hp1
        rcases hcase with hc | hc
        · exact ⟨p', hmem', by rw [hname, hc], ext, by rw [hext, hc]⟩
        · refine ⟨p', hmem', ?_, "param_realloc" :: ext, ?_⟩
          · rw [hname, hc, addHook_handle_name]
          · rw [hext, hc, addHook_hooksOf, List.append_assoc]
            rfl
    · rw [if_neg h1]
      exact ih (st.1 ++ [(h, emptyHookPayload h isPre d)], st.2 ++ [msid2mwid h]) h0 p0
        (List.mem_append_left _ hm)

theorem emptyHookPayload_handle_name (h : ModelShardID) (isPre : Bool) (d : HookData) :
    (emptyHookPayload h isPre d).handle_name = "empty" := by
  rw [emptyHookPayload, addHook_handle_name]

theorem emptyHookPayload_hooksOf (h : ModelShardID) (isPre : Bool) (d : HookData) :
    (emptyHookPayload h isPre d).hooksOf isPre = ["param_realloc"] := by
  rw [emptyHookPayload, addHook_hooksOf]
  cases isPre <;> rfl

theorem attachOtherFold_new (msid2mwid : ModelShardID → Nat) (mainMwids : List Nat)
    (isPre : Bool) (d : HookData) :
    ∀ (others : List ModelShardID) (st : HookState) (w : Nat),
      w ∉ st.2 → w ∈ others.map msid2mwid →
      ∃ h' p', (h', p') ∈ (others.foldl (attachOther msid2mwid mainMwids isPre d) st).1 ∧
        msid2mwid h' = w ∧ p'.handle_name = "empty" ∧
        "param_realloc" ∈ p'.hooksOf isPre := by
  intro others
  induction others with
  | nil => intro st w _ hm; cases hm
  | cons h t ih =>
    intro st w hnw hm
    rw [List.foldl_cons, attachOther]
    by_cases hc : msid2mwid h = w
    · rw [if_neg (by rw [hc]; exact hnw)]
      have hbase : (h, emptyHookPayload h isPre d)
          ∈ (st.1 ++ [(h, emptyHookPayload h isPre d)], st.2 ++ [w]).1 := by
        simp
      obtain ⟨p', hmem', hname, ext, hext⟩ :=
        attachOtherFold_frame msid2mwid mainMwids isPre d t
          (st.1 ++ [(h, emptyHookPayload h isPre d)], st.2 ++ [msid2mwid h]) h
          (emptyHookPayload h isPre d) (by simp)
      refine ⟨h, p', hmem', hc, ?_, ?_⟩
      · rw [hname, emptyHookPayload_handle_name]
      · rw [hext, emptyHookPayload_hooksOf]
        exact List.mem_append_left _ (List.mem_singleton_self _)
    · have hm' : w ∈ t.map msid2mwid := by
        rcases List.mem_map.mp hm with ⟨x, hx, hxe⟩
        rcases List.mem_cons.mp hx with hxx | hxx
        · exact absurd (hxx ▸ hxe) hc
        · rw [List.mem_map]; exact ⟨x, hxx, hxe⟩
      by_cases h1 : msid2mwid h ∈ st.2
      · rw [if_pos h1]
        by_cases h2 : msid2mwid h ∈ mainMwids
        · rw [if_pos h2]
          exact ih st w hnw hm'
        · rw [if_neg h2]
          exact ih _ w hnw hm'
      · rw [if_neg h1]
        refine ih _ w ?_ hm'
        intro hcon
        rcases List.mem_append.mp hcon with hcc | hcc
        · exact hnw hcc
        · exact hc (List.mem_singleton.mp hcc).symm

theorem attachOtherFold_addressed (msid2mwid : ModelShardID → Nat) (mainMwids : List Nat)
    (isPre : Bool) (d : HookData) :
    ∀ (others : List ModelShardID) (st : HookState) (w : Nat), HookWF msid2mwid st →
      w ∈ st.2 → w ∉ mainMwids → w ∈ others.map msid2mwid →
      ∃ h' p0 p', (h', p0) ∈ st.1 ∧
        (h', p') ∈ (others.foldl (attachOther msid2mwid mainMwids isPre d) st).1 ∧
        msid2mwid h' = w ∧ p'.handle_name = p0.handle_name ∧
        "param_realloc" ∈ p'.hooksOf isPre := by
  intro others
  induction others with
  | nil => intro st w _ _ _ hm; cases hm
  | cons h t ih =>
    intro st w hwf hw hwm hm
    rw [List.foldl_cons, attachOther]
    by_cases hc : msid2mwid h = w
    · rw [if_pos (by rw [hc]; exact hw), if_neg (by rw [hc]; exact hwm)]
      have hwmap : w ∈ st.1.map (fun q => msid2mwid q.1) := by
        rw [← hwf.1]; exact hw
      obtain ⟨q, hq, hqw, hqm⟩ :=
        updateFirstByMwid_hits msid2mwid (msid2mwid h)
          (fun p => p.addHook isPre "param_realloc" d) st.1 (by rw [hc]; exact hwmap)
      obtain ⟨p', hmem', hname, ext, hext⟩ :=
        attachOtherFold_frame msid2mwid mainMwids isPre d t
          (updateFirstByMwid msid2mwid st.1 (msid2mwid h)
            (fun p => p.addHook isPre "param_realloc" d), st.2) q.1
          (q.2.addHook isPre "param_realloc" d) hqm
      refine ⟨q.1, q.2, p', hq, hmem', by rw [hqw, hc], ?_, ?_⟩
      · rw [hname, addHook_handle_name]
      · rw [hext, addHook_hooksOf]
        exact List.mem_append_left _ (List.mem_append_right _ (List.mem_singleton_self _))
    · have hm' : w ∈ t.map msid2mwid := by
        rcases List.mem_map.mp hm with ⟨x, hx, hxe⟩
        rcases List.mem_cons.mp hx with hxx | hxx
        · exact absurd (hxx ▸ hxe) hc
        · rw [List.mem_map]; exact ⟨x, hxx, hxe⟩
      by_cases h1 : msid2mwid h ∈ st.2
      · rw [if_pos h1]
        by_cases h2 : msid2mwid h ∈ mainMwids
        · rw [if_pos h2]
          exact ih st w hwf hw hwm hm'
        · rw [if_neg h2]
          have hwf1 : HookWF msid2mwid (updateFirstByMwid msid2mwid st.1 (msid2mwid h)
              (fun p => p.addHook isPre "param_realloc" d), st.2) := by
            refine ⟨?_, hwf.2⟩
            show st.2 = _
            rw [hwf.1]
            exact (map_wid_of_map_fst msid2mwid
              (updateFirstByMwid_fst msid2mwid (msid2mwid h) _ st.1)).symm
          obtain ⟨h', p0, p', hp0, hp', hw', hname, hmemhook⟩ :=
            ih _ w hwf1 hw hwm hm'
          have hp0' : (h', p0) ∈ st.1 := by
            refine updateFirstByMwid_mem_rev msid2mwid (msid2mwid h) _ st.1 (h', p0) hp0 ?_
            simp only
            rw [hw']
            exact fun hcc => hc hcc.symm
          exact ⟨h', p0, p', hp0', hp', hw', hname, hmemhook⟩
      · rw [if_neg h1]
        have hwf1 : HookWF msid2mwid
            (st.1 ++ [(h, emptyHookPayload h isPre d)], st.2 ++ [msid2mwid h]) := by
          constructor
          · show st.2 ++ [msid2mwid h] = _
            rw [List.map_append, ← hwf.1]
            rfl
          · rw [List.nodup_append]
            refine ⟨hwf.2, List.nodup_singleton _, ?_⟩
            intro a ha hb
            rw [List.mem_singleton] at hb
            exact h1 (hb ▸ ha)
        obtain ⟨h', p0, p', hp0, hp', hw', hname, hmemhook⟩ :=
          ih _ w hwf1 (List.mem_append_left _ hw) hwm hm'
        have hp0' : (h', p0) ∈ st.1 := by
          rcases List.mem_append.mp hp0 with hcc | hcc
          · exact hcc
          · have := List.mem_singleton.mp hcc
            have hh' : h' = h := congrArg Prod.fst this
            rw [hh'] at hw'
            exact absurd hw'.symm (fun hcc2 => hc hcc2.symm)
        exact ⟨h', p0, p', hp0', hp', hw', hname, hmemhook⟩

end MasterWorker

namespace MasterWorker

/-- Claim C3.  For every RPC invocation whose hooks include a
`SyncParamHook` (resolving to the other endpoint `otherName`), processing
the hook from any well-formed payload state (one payload per worker id;
primary handlers present) yields a state where: (1) there is still exactly
one payload per worker id; (2) every primary handler's payload received
`param_realloc` appended to its selected hook list (handle name
unchanged); (3) every worker holding a shard of the other endpoint that
was not yet addressed now has exactly one payload — an `empty` one
carrying the `param_realloc` hook; and (4) every such worker that was
already addressed but is not a primary-handler worker has the hook
appended to its already-existing payload (same handle name) instead of
receiving a second payload. -/
theorem C3_sync_param_payloads
    (rpc : HookRPC) (mt : ModelName → Topo) (mc : ModelName → Option Nat)
    (msid2mwid : ModelShardID → Nat) (mainHandlers : List ModelShardID) (isPre : Bool)
    (st st' : HookState) (src tgt : Option ModelName) (psd : PsData) (otherName : ModelName)
    (hwf : HookWF msid2mwid st) (hmain_nd : mainHandlers.Nodup)
    (hresolve : resolveSyncParam rpc mt mc src tgt = some (psd, otherName))
    (hst' : attachOneHook rpc mt mc msid2mwid mainHandlers isPre st
      (Hook.syncParam src tgt) = some st') :
    (∀ (handlers : List ModelShardID) (producers : List ModelName) (st2 : HookState),
      (handlers.map msid2mwid).Nodup →
      scatterPayloads rpc mt mc msid2mwid handlers producers = some st2 →
      (st2.1.map (fun q => msid2mwid q.1)).Nodup) ∧
    (HookWF msid2mwid st' ∧ (st'.1.map (fun q => msid2mwid q.1)).Nodup) ∧
    (∀ h0 p0, h0 ∈ mainHandlers → (h0, p0) ∈ st.1 →
      ∃ p', (h0, p') ∈ st'.1 ∧ p'.handle_name = p0.handle_name ∧
        ∃ ext, p'.hooksOf isPre = p0.hooksOf isPre ++ "param_realloc" :: ext) ∧
    (∀ w, w ∈ (((List.range (mt otherName).worldSize).map
        (fun j => ModelShardID.mk otherName j)).map msid2mwid) → w ∉ st.2 →
      (∃ h' p', (h', p') ∈ st'.1 ∧ msid2mwid h' = w ∧ p'.handle_name = "empty" ∧
        "param_realloc" ∈ p'.hooksOf isPre) ∧
      (∀ q1 q2, q1 ∈ st'.1 → q2 ∈ st'.1 → msid2mwid q1.1 = w → msid2mwid q2.1 = w →
        q1 = q2)) ∧
    (∀ w, w ∈ (((List.range (mt otherName).worldSize).map
        (fun j => ModelShardID.mk otherName j)).map msid2mwid) → w ∈ st.2 →
      w ∉ mainHandlers.map msid2mwid →
      ∃ h' p0 p', (h', p0) ∈ st.1 ∧ (h', p') ∈ st'.1 ∧ msid2mwid h' = w ∧
        p'.handle_name = p0.handle_name ∧ "param_realloc" ∈ p'.hooksOf isPre) := by
  have hwf' := attachOneHook_wf rpc mt mc msid2mwid mainHandlers isPre st st'
    (Hook.syncParam src tgt) hwf hst'
  have hnodmap : (st'.1.map (fun q => msid2mwid q.1)).Nodup := by
    rw [← hwf'.1]
    exact hwf'.2
  rw [attachOneHook, hresolve] at hst'
  have hst'eq : st' = ((List.range (mt otherName).worldSize).map
      (fun j => ModelShardID.mk otherName j)).foldl
        (attachOther msid2mwid (mainHandlers.map msid2mwid) isPre
          (HookData.paramRealloc psd))
        (mainHandlers.foldl (fun ps h => updatePayload ps h
          (fun p => p.addHook isPre "param_realloc" (HookData.paramRealloc psd))) st.1,
         st.2) :=
    (Option.some.inj hst').symm
  refine ⟨?_, ⟨hwf', hnodmap⟩, ?_, ?_, ?_⟩
  · intro handlers producers st2 hnd2 hassembled
    have hwf2 := scatterPayloads_wf rpc mt mc msid2mwid handlers producers st2 hnd2 hassembled
    rw [← hwf2.1]
    exact hwf2.2
  · intro h0 p0 hmem0 hmemst
    have h1 : (h0, p0.addHook isPre "param_realloc" (HookData.paramRealloc psd))
        ∈ mainHandlers.foldl (fun ps h => updatePayload ps h
          (fun p => p.addHook isPre "param_realloc" (HookData.paramRealloc psd))) st.1 :=
      mainFold_mem _ mainHandlers st.1 hmain_nd h0 p0 hmemst hmem0
    obtain ⟨p', hp', hname, ext, hext⟩ :=
      attachOtherFold_frame msid2mwid (mainHandlers.map msid2mwid) isPre
        (HookData.paramRealloc psd)
        ((List.range (mt otherName).worldSize).map (fun j => ModelShardID.mk otherName j))
        (mainHandlers.foldl (fun ps h => updatePayload ps h
          (fun p => p.addHook isPre "param_realloc" (HookData.paramRealloc psd))) st.1,
         st.2) h0 _ h1
    refine ⟨p', by rw [hst'eq]; exact hp', ?_, ext, ?_⟩
    · rw [hname, addHook_handle_name]
    · rw [hext, addHook_hooksOf, List.append_assoc]
      rfl
  · intro w hwmem hnw
    have hw' : w ∈ ((List.range (mt otherName).worldSize).map
        (fun j => ModelShardID.mk otherName j)).map msid2mwid := hwmem
    constructor
    · obtain ⟨h', p', hp', hwid, hname, hmem⟩ :=
        attachOtherFold_new msid2mwid (mainHandlers.map msid2mwid) isPre
          (HookData.paramRealloc psd)
          ((List.range (mt otherName).worldSize).map (fun j => ModelShardID.mk otherName j))
          (mainHandlers.foldl (fun ps h => updatePayload ps h
            (fun p => p.addHook isPre "param_realloc" (HookData.paramRealloc psd))) st.1,
           st.2) w hnw hw'
      exact ⟨h', p', by rw [hst'eq]; exact hp', hwid, hname, hmem⟩
    · intro q1 q2 hq1 hq2 hw1 hw2
      exact List.inj_on_of_nodup_map hnodmap hq1 hq2 (by rw [hw1, hw2])
  · intro w hwmem hin hnotmain
    have hwf1 : HookWF msid2mwid
        (mainHandlers.foldl (fun ps h => updatePayload ps h
          (fun p => p.addHook isPre "param_realloc" (HookData.paramRealloc psd))) st.1,
         st.2) :=
      mainFold_wf msid2mwid _ mainHandlers st hwf
    obtain ⟨h', p0, p', hp0, hp', hwid, hname, hmem⟩ :=
      attachOtherFold_addressed msid2mwid (mainHandlers.map msid2mwid) isPre
        (HookData.paramRealloc psd)
        ((List.range (mt otherName).worldSize).map (fun j => ModelShardID.mk otherName j))
        (mainHandlers.foldl (fun ps h => updatePayload ps h
          (fun p => p.addHook isPre "param_realloc" (HookData.paramRealloc psd))) st.1,
         st.2) w hwf1 hin hnotmain hwmem
    have hnotmem : h' ∉ mainHandlers := by
      intro hcon
      exact hnotmain (hwid ▸ List.mem_map_of_mem msid2mwid hcon)
    have hp0' : (h', p0) ∈ st.1 :=
      mainFold_mem_rev _ mainHandlers st.1 hmain_nd h' p0 hp0 hnotmem
    exact ⟨h', p0, p', hp0', by rw [hst'eq]; exact hp', hwid, hname, hmem⟩

end MasterWorker

namespace MasterWorker

/-- Concrete C3 scenario: RPC on model "actor" (shards on workers 0, 1)
with a pre `SyncParamHook(target="critic")`; "critic" shards live on
workers 1 and 2. -/
def c3rpc : HookRPC :=
  ⟨⟨"actor", 0⟩, "generate", [Hook.syncParam none (some ⟨"critic", 0⟩)], []⟩

def c3mt : ModelName → Topo := fun _ => ⟨1, 1, 2⟩

def c3mc : ModelName → Option Nat := fun _ => none

def c3wid : ModelShardID → Nat := fun h =>
  if h.model_name.role == "actor" then h.parallelism_rank else h.parallelism_rank + 1

def c3mains : List ModelShardID := [⟨⟨"actor", 0⟩, 0⟩, ⟨⟨"actor", 0⟩, 1⟩]

def c3st : HookState := (initPayloads c3rpc c3mains, c3mains.map c3wid)

def c3st' : HookState :=
  (attachOneHook c3rpc c3mt c3mc c3wid c3mains true c3st
    (Hook.syncParam none (some ⟨"critic", 0⟩))).getD ([], [])

/-- The fully assembled payload set of the concrete C3 scenario. -/
def c3assembled : HookState :=
  (scatterPayloads c3rpc c3mt c3mc c3wid c3mains []).getD ([], [])

/-- Witness for C3: in the concrete scenario, after the hook is processed
there is one payload per worker id (also for the full assembly), and
worker 2 (critic shard only) received exactly an `empty` payload carrying
`param_realloc`. -/
theorem C3_witness :
    (HookWF c3wid c3st' ∧ (c3assembled.1.map (fun q => c3wid q.1)).Nodup) ∧
    (∃ h' p', (h', p') ∈ c3st'.1 ∧ c3wid h' = 2 ∧ p'.handle_name = "empty" ∧
      "param_realloc" ∈ p'.hooksOf true) := by
  have h := C3_sync_param_payloads c3rpc c3mt c3mc c3wid c3mains true c3st c3st'
    none (some ⟨"critic", 0⟩)
    ⟨⟨"actor", 0⟩, ⟨"critic", 0⟩, ⟨1, 1, 2⟩, ⟨1, 1, 2⟩, none⟩ ⟨"critic", 0⟩
    ⟨by decide, by decide⟩ (by decide) rfl rfl
  exact ⟨⟨h.2.1.1, h.1 c3mains [] c3assembled (by decide) rfl⟩,
    (h.2.2.2.1 2 (by decide) (by decide)).1⟩

end MasterWorker
